import Mathlib

/-!
# Verification of the crypto-exchange matching core

A shallow embedding, in Lean 4, of the core of the
`moura95/crypto-exchange-challenge` repository: the tick arithmetic
(`pkg/utils/tick.go`), the balance ledger (`internal/account/manager.go`),
the price-level fill routine and order book
(`internal/orderbook/limit.go`, `internal/orderbook/orderbook.go`)
and the matching engine (`internal/engine/engine.go`).

Modelling conventions:
* Go `float64` values are modelled as exact rationals (`ℚ`); decimal
  literals of the source (`0.01`, `1e-8`, `1e-9`, `1e-10`) are taken as the
  exact rationals they denote.
* Go maps are modelled as association lists; a Go map assignment is a
  replace-or-insert on the list, and map iteration order is never relied on.
* Go pointer sharing between a price level's order slice and the book's
  `Orders` index is modelled with value semantics plus an explicit
  write-through of updated order values into the index.
* Go methods that mutate the receiver and return an `error` become
  functions returning the new state paired with `Option Err` / `Except Err`.
-/

set_option linter.unusedVariables false

namespace Exchange

/-- Error kinds of the core (account, orderbook and engine errors merged
into one inductive; Go distinguishes them only by message). -/
inductive Err where
  | invalidUserID
  | invalidAsset
  | invalidAmount
  | insufficientBalance
  | insufficientLocked
  | invalidPair
  | invalidPriceTick
  | invalidAmountTick
  | orderNotFound
  | unauthorized
  | invalidPrice
  | invalidSide
  | transferFailed
  | refundFailed
deriving DecidableEq, Repr

/-! ## Tick arithmetic (`pkg/utils/tick.go`) -/

/-- The `+0.000000001` bias used by `FloorToTick`. -/
def bias : ℚ := 1 / 1000000000

/-- The `0.0000000001` epsilon used by `IsValidTick`. -/
def tickEps : ℚ := 1 / 10000000000

/-- `FloorToTick` from `tick.go`: largest multiple of `tick` not exceeding
`val`, with a small upward bias before flooring; `tick = 0` returns `val`. -/
def FloorToTick (val tick : ℚ) : ℚ :=
  if tick = 0 then val else (⌊val / tick + bias⌋ : ℤ) * tick

/-- `IsValidTick` from `tick.go`. -/
def IsValidTick (val tick : ℚ) : Bool :=
  if tick = 0 then true else decide (|val - FloorToTick val tick| < tickEps)

/-- Go's `math.Round`: round to nearest, halves away from zero. -/
def goRound (x : ℚ) : ℤ :=
  if 0 ≤ x then ⌊x + 1 / 2⌋ else -⌊-x + 1 / 2⌋

/-- `PriceToTicks` from `tick.go`. -/
def PriceToTicks (price tick : ℚ) : ℤ :=
  if tick = 0 then 0 else goRound (price / tick)

/-- `TicksToPrice` from `tick.go`. -/
def TicksToPrice (ticks : ℤ) (tick : ℚ) : ℚ := (ticks : ℚ) * tick

/-! ## Balance ledger (`internal/account/balance.go`, `manager.go`) -/

/-- A per-(user, asset) balance. -/
structure Balance where
  available : ℚ
  locked : ℚ
deriving DecidableEq, Repr

/-- `Balance.Total`. -/
def Balance.total (b : Balance) : ℚ := b.available + b.locked

/-- The account manager: `accounts map[string]map[string]*Balance`,
flattened to an association list keyed by (user, asset). -/
structure Manager where
  accounts : List ((String × String) × Balance)
deriving DecidableEq, Repr

/-- `validateInputs` from `manager.go`. -/
def validateInputs (userID asset : String) (amount : ℚ) : Option Err :=
  if userID = "" then some .invalidUserID
  else if asset = "" then some .invalidAsset
  else if amount ≤ 0 then some .invalidAmount
  else none

/-- Lookup of the stored balance of a (user, asset) pair. -/
def findBal (l : List ((String × String) × Balance)) (u a : String) : Option Balance :=
  (l.find? (fun e => e.1 = (u, a))).map (·.2)

/-- `getOrCreateBalance`: materialise a zero balance on first touch. -/
def getOrCreateList (l : List ((String × String) × Balance)) (u a : String) :
    List ((String × String) × Balance) :=
  if (l.find? (fun e => e.1 = (u, a))).isSome then l else ((u, a), ⟨0, 0⟩) :: l

/-- Replace the value of the first entry with the given key. -/
def setFirst : List ((String × String) × Balance) → (String × String) → Balance →
    List ((String × String) × Balance)
  | [], _, _ => []
  | e :: es, k, b => if e.1 = k then (k, b) :: es else e :: setFirst es k b

/-- `Manager.Credit`. -/
def Manager.credit (m : Manager) (u a : String) (x : ℚ) : Manager × Option Err :=
  match validateInputs u a x with
  | some e => (m, some e)
  | none =>
    let l := getOrCreateList m.accounts u a
    let b := (findBal l u a).getD ⟨0, 0⟩
    (⟨setFirst l (u, a) ⟨b.available + x, b.locked⟩⟩, none)

/-- `Manager.Debit`. -/
def Manager.debit (m : Manager) (u a : String) (x : ℚ) : Manager × Option Err :=
  match validateInputs u a x with
  | some e => (m, some e)
  | none =>
    let l := getOrCreateList m.accounts u a
    let b := (findBal l u a).getD ⟨0, 0⟩
    if b.available < x then (⟨l⟩, some .insufficientBalance)
    else (⟨setFirst l (u, a) ⟨b.available - x, b.locked⟩⟩, none)

/-- `Manager.Lock`. -/
def Manager.lock (m : Manager) (u a : String) (x : ℚ) : Manager × Option Err :=
  match validateInputs u a x with
  | some e => (m, some e)
  | none =>
    let l := getOrCreateList m.accounts u a
    let b := (findBal l u a).getD ⟨0, 0⟩
    if b.available < x then (⟨l⟩, some .insufficientBalance)
    else (⟨setFirst l (u, a) ⟨b.available - x, b.locked + x⟩⟩, none)

/-- `Manager.Unlock`. -/
def Manager.unlock (m : Manager) (u a : String) (x : ℚ) : Manager × Option Err :=
  match validateInputs u a x with
  | some e => (m, some e)
  | none =>
    let l := getOrCreateList m.accounts u a
    let b := (findBal l u a).getD ⟨0, 0⟩
    if b.locked < x then (⟨l⟩, some .insufficientLocked)
    else (⟨setFirst l (u, a) ⟨b.available + x, b.locked - x⟩⟩, none)

/-- `Manager.DebitLocked`. -/
def Manager.debitLocked (m : Manager) (u a : String) (x : ℚ) : Manager × Option Err :=
  match validateInputs u a x with
  | some e => (m, some e)
  | none =>
    let l := getOrCreateList m.accounts u a
    let b := (findBal l u a).getD ⟨0, 0⟩
    if b.locked < x then (⟨l⟩, some .insufficientLocked)
    else (⟨setFirst l (u, a) ⟨b.available, b.locked - x⟩⟩, none)

/-- `Manager.GetBalance`: a snapshot copy when the pair exists, Go `nil`
(here `none`) when it does not. -/
def Manager.getBalance (m : Manager) (u a : String) : Option Balance :=
  findBal m.accounts u a

/-- Observable amounts of a (user, asset) pair: the stored balance, a
missing pair reading as zero (the lazily-materialised view). -/
def Manager.bal (m : Manager) (u a : String) : Balance :=
  (findBal m.accounts u a).getD ⟨0, 0⟩

/-- Per-asset total of `available + locked` over all users. -/
def assetTotal (m : Manager) (asset : String) : ℚ :=
  m.accounts.foldr
    (fun e s => if e.1.2 = asset then e.2.available + e.2.locked + s else s) 0

/-! ## Orders, matches, price levels (`internal/orderbook`) -/

/-- Order side. -/
inductive Side where
  | bid
  | ask
deriving DecidableEq, Repr

/-- Order type. -/
inductive OType where
  | limit
  | market
deriving DecidableEq, Repr

/-- Order state (`open`, `partially_filled`, `filled`, `cancelled`). -/
inductive OState where
  | opened
  | partFilled
  | filled
  | cancelled
deriving DecidableEq, Repr

/-- An order. The Go `Limit *Limit` back-reference is modelled by the
resting level's `priceTicks` (level identity on the order's own side);
the arrival timestamp is dropped (FIFO is the list order). -/
structure Order where
  id : Int
  userID : String
  side : Side
  otype : OType
  price : ℚ
  amount : ℚ
  filledAmount : ℚ
  state : OState
  limitTicks : Option Int
deriving DecidableEq, Repr

/-- `Order.IsFilled`. -/
def Order.isFilled (o : Order) : Bool := decide (o.amount ≤ o.filledAmount)

/-- `Order.RemainingAmount`. -/
def Order.remaining (o : Order) : ℚ := o.amount - o.filledAmount

/-- `NewOrder` (limit order construction; the fresh id is passed in,
modelling the global atomic counter). The Go side-validity check is
vacuous here since `Side` is an enumeration. -/
def NewOrder (nid : Int) (userID : String) (side : Side) (price amount : ℚ) :
    Except Err Order :=
  if userID = "" then .error .invalidUserID
  else if price ≤ 0 then .error .invalidPrice
  else if amount ≤ 0 then .error .invalidAmount
  else .ok ⟨nid, userID, side, .limit, price, amount, 0, .opened, none⟩

/-- A trade (`Match`); `bid`/`ask` are the snapshots of the two orders at
the moment of emission (the Go struct holds pointers; all later reads of
them are of immutable fields or happen before further mutation). -/
structure Match where
  bid : Order
  ask : Order
  price : ℚ
  sizeFilled : ℚ
deriving DecidableEq, Repr

/-- A price level (`Limit`). -/
structure Limit where
  priceTicks : Int
  orders : List Order
  totalVolume : ℚ
deriving DecidableEq, Repr

/-- `NewLimit`. -/
def NewLimit (k : Int) : Limit := ⟨k, [], 0⟩

/-- `Limit.AddOrder`: set the back-reference, append, grow the volume. -/
def Limit.addOrder (l : Limit) (o : Order) : Limit × Order :=
  let o2 := { o with limitTicks := some l.priceTicks }
  ({ l with orders := l.orders ++ [o2], totalVolume := l.totalVolume + o2.remaining }, o2)

/-- Remove the first order with the given id, if present. -/
def delOrd : List Order → Int → Option (List Order)
  | [], _ => none
  | x :: xs, i =>
    if x.id = i then some xs else (delOrd xs i).map (fun r => x :: r)

/-- `Limit.DeleteOrder`: remove by id, subtract the removed order's
remaining amount from the volume (the back-reference clearing on the
removed order itself is done by the caller's write-through). -/
def Limit.deleteOrder (l : Limit) (o : Order) : Limit :=
  match delOrd l.orders o.id with
  | some rest => { l with orders := rest, totalVolume := l.totalVolume - o.remaining }
  | none => l

/-- The state-update `switch` of `Limit.Fill`, shared by the incoming and
the resting order: full fill → `filled`, any progress → `partially_filled`. -/
def applyFillState (o : Order) : Order :=
  if o.isFilled then { o with state := .filled }
  else if 0 < o.filledAmount then { o with state := .partFilled }
  else o

/-- The iteration of `Limit.Fill` over the level's resting orders, in
FIFO order.  Returns the updated incoming order, the updated resting
sequence (before deletions), the emitted matches, and the resting orders
that reached `filled` (Go's `ordersToDelete`), in consumption order. -/
def fillLoop (incoming : Order) (price : ℚ) :
    List Order → Order × List Order × List Match × List Order
  | [] => (incoming, [], [], [])
  | o :: rest =>
    if incoming.isFilled then (incoming, o :: rest, [], [])
    else if o.userID = incoming.userID then
      -- self-trade prevention: skip, keep resting
      match fillLoop incoming price rest with
      | (inc2, rest2, ms, dels) => (inc2, o :: rest2, ms, dels)
    else
      let fillSize := min incoming.remaining o.remaining
      let inc1 := applyFillState { incoming with filledAmount := incoming.filledAmount + fillSize }
      let o1 := applyFillState { o with filledAmount := o.filledAmount + fillSize }
      let mt : Match :=
        if incoming.side = Side.bid then ⟨inc1, o1, price, fillSize⟩
        else ⟨o1, inc1, price, fillSize⟩
      match fillLoop inc1 price rest with
      | (inc2, rest2, ms, dels) =>
        (inc2, o1 :: rest2, mt :: ms, if o1.isFilled then o1 :: dels else dels)

/-- Sum of the `sizeFilled` of a list of matches. -/
def sumSizes (ms : List Match) : ℚ := ms.foldr (fun m s => m.sizeFilled + s) 0

/-- `Limit.Fill`: run the pass, subtract the filled volume, delete the
fully filled resting orders.  The last component is those deleted orders
with their back-reference cleared (Go clears it through the pointer). -/
def Limit.fill (l : Limit) (incoming : Order) (priceTick : ℚ) :
    Order × Limit × List Match × List Order :=
  let levelPrice := TicksToPrice l.priceTicks priceTick
  match fillLoop incoming levelPrice l.orders with
  | (inc2, processed, ms, dels) =>
    let lim1 : Limit := { l with orders := processed, totalVolume := l.totalVolume - sumSizes ms }
    let lim2 := dels.foldl (fun lm o => lm.deleteOrder o) lim1
    (inc2, lim2, ms, dels.map (fun o => { o with limitTicks := none }))

/-! ## Order book (`internal/orderbook/orderbook.go`) -/

/-- The order book. `BidLimits`/`AskLimits` (the per-side tick-keyed maps,
kept in lockstep with the slices by the Go code) are modelled by lookup in
the sorted lists; `Orders` is the id-keyed index of resting orders. -/
structure Orderbook where
  bids : List Limit
  asks : List Limit
  orders : List (Int × Order)
  priceTick : ℚ
deriving DecidableEq, Repr

/-- `NewOrderbook` (price tick `0.01`). -/
def NewOrderbook : Orderbook := ⟨[], [], [], 1 / 100⟩

/-- Lookup in the id-keyed order index. -/
def mapLookup (m : List (Int × Order)) (i : Int) : Option Order :=
  (m.find? (fun e => e.1 = i)).map (·.2)

/-- Go map assignment: replace the value if the key exists, else insert. -/
def mapInsert (m : List (Int × Order)) (i : Int) (o : Order) : List (Int × Order) :=
  if (m.find? (fun e => e.1 = i)).isSome then
    m.map (fun e => if e.1 = i then (i, o) else e)
  else (i, o) :: m

/-- Go map delete. -/
def mapErase (m : List (Int × Order)) (i : Int) : List (Int × Order) :=
  m.filter (fun e => ¬ e.1 = i)

/-- Pointer-aliasing write-through: an order mutated inside a level is the
same object the index points to, so its updated value is propagated to the
index (existing keys only; never inserts). -/
def mapReplace (m : List (Int × Order)) (o : Order) : List (Int × Order) :=
  m.map (fun e => if e.1 = o.id then (o.id, o) else e)

/-- Replace the level with the given ticks (pointer update in Go). -/
def replaceLimit (ls : List Limit) (k : Int) (nl : Limit) : List Limit :=
  ls.map (fun l => if l.priceTicks = k then nl else l)

/-- `clearLimit`: remove the first level with the given ticks. -/
def removeLimitFirst : List Limit → Int → List Limit
  | [], _ => []
  | l :: ls, k => if l.priceTicks = k then ls else l :: removeLimitFirst ls k

/-- Sorted insert, ascending ticks (the asks comparator of the Go
`sort.Slice` call; on the reachable, already-sorted books this equals the
full re-sort the Go code performs after `append`). -/
def insertAsc (x : Limit) : List Limit → List Limit
  | [] => [x]
  | y :: ys => if x.priceTicks < y.priceTicks then x :: y :: ys else y :: insertAsc x ys

/-- Sorted insert, descending ticks (the bids comparator). -/
def insertDesc (x : Limit) : List Limit → List Limit
  | [] => [x]
  | y :: ys => if y.priceTicks < x.priceTicks then x :: y :: ys else y :: insertDesc x ys

/-- The intended (best-first) matching sweep of `PlaceLimitOrder` over one
side's levels: stop at the first level for which `cross` holds or once the
incoming order is filled; fill against each remaining level; drop levels
that become empty.  Also accumulates the matches and the fully-filled
resting orders for the index write-through.  The Go loop implements this
sweep with a `range` over the slice header captured at loop entry while
`clearLimit` shifts the backing array in place; `walkFillGo` below models
that iteration exactly, and it coincides with this sweep precisely when no
visited level empties (`walkFillGo_eq_walkFill`). -/
def walkFill (incoming : Order) (priceTick : ℚ) (cross : Limit → Bool) :
    List Limit → List Limit × Order × List Match × List Order
  | [] => ([], incoming, [], [])
  | lim :: rest =>
    if cross lim then (lim :: rest, incoming, [], [])
    else if incoming.isFilled then (lim :: rest, incoming, [], [])
    else
      match lim.fill incoming priceTick with
      | (inc1, lim1, ms, removed) =>
        match walkFill inc1 priceTick cross rest with
        | (rest2, inc2, ms2, removed2) =>
          if lim1.orders.isEmpty then (rest2, inc2, ms ++ ms2, removed ++ removed2)
          else (lim1 :: rest2, inc2, ms ++ ms2, removed ++ removed2)

/-- The in-place removal of `clearLimit`'s
`append(s[:j], s[j+1:]...)` on the shared backing array: positions
`j .. curLen-2` receive the old `j+1 .. curLen-1`, position `curLen-1`
keeps its old (now stale, duplicated) entry, and the tail beyond the
active region is untouched.  The array keeps its length. -/
def bufRemove (arr : List Limit) (curLen j : Nat) : List Limit :=
  arr.take j ++ (arr.drop (j + 1)).take (curLen - j - 1) ++ arr.drop (curLen - 1)

/-- `clearLimit` as seen by the running walk: scan the active region of
the slice for the first level with the given ticks and shift it out in
place, shortening the active length by one. -/
def clearLimitGo (arr : List Limit) (curLen : Nat) (kt : Int) : List Limit × Nat :=
  match (arr.take curLen).findIdx? (fun l => l.priceTicks = kt) with
  | none => (arr, curLen)
  | some j => (bufRemove arr curLen j, curLen - 1)

/-- The walk as Go actually executes it: `for _, lim := range ob.asks`
captures the slice header (backing array and length) once, the loop index
`i` runs over the ORIGINAL length, and each iteration reads slot `i` of
the CURRENT backing array, which `clearLimitGo` shifts in place when a
level empties — so emptying a level makes the next slot hold the level
after the skipped one.  `arr` is the backing array (constant length,
entries beyond `curLen` stale), `fuel` the remaining iterations of the
original bound, `i` the loop index, `curLen` the current slice length.
Pointer aliasing between slots (the stale duplicate) is modelled by
writing a filled level back to every slot holding its ticks
(`replaceLimit`), matching the aliasing convention used for the order
index. -/
def walkFillGo (priceTick : ℚ) (cross : Limit → Bool) :
    Nat → Nat → Nat → List Limit → Order →
    List Limit × Nat × Order × List Match × List Order
  | 0, _, curLen, arr, inc => (arr, curLen, inc, [], [])
  | fuel + 1, i, curLen, arr, inc =>
    match arr.get? i with
    | none => (arr, curLen, inc, [], [])
    | some lim =>
      if cross lim then (arr, curLen, inc, [], [])
      else if inc.isFilled then (arr, curLen, inc, [], [])
      else
        match lim.fill inc priceTick with
        | (inc1, lim1, ms1, rem1) =>
          let arr1 := replaceLimit arr lim.priceTicks lim1
          if lim1.orders.isEmpty then
            match clearLimitGo arr1 curLen lim1.priceTicks with
            | (arr2, curLen2) =>
              match walkFillGo priceTick cross fuel (i + 1) curLen2 arr2 inc1 with
              | (arr3, cl3, inc2, ms2, rem2) =>
                (arr3, cl3, inc2, ms1 ++ ms2, rem1 ++ rem2)
          else
            match walkFillGo priceTick cross fuel (i + 1) curLen arr1 inc1 with
            | (arr3, cl3, inc2, ms2, rem2) =>
              (arr3, cl3, inc2, ms1 ++ ms2, rem1 ++ rem2)

/-- `addOrderToBook`: find or create the level at the order's ticks on its
own side, add the order (setting its back-reference) and index it. -/
def Orderbook.addOrderToBook (ob : Orderbook) (order : Order) (k : Int) :
    Orderbook × Order :=
  match (if order.side = Side.bid then ob.bids else ob.asks).find?
      (fun l => l.priceTicks = k) with
  | some lim =>
    match lim.addOrder order with
    | (lim2, o2) =>
      let ob2 := if order.side = Side.bid
        then { ob with bids := replaceLimit ob.bids k lim2 }
        else { ob with asks := replaceLimit ob.asks k lim2 }
      ({ ob2 with orders := mapInsert ob2.orders o2.id o2 }, o2)
  | none =>
    match (NewLimit k).addOrder order with
    | (lim2, o2) =>
      let ob2 := if order.side = Side.bid
        then { ob with bids := insertDesc lim2 ob.bids }
        else { ob with asks := insertAsc lim2 ob.asks }
      ({ ob2 with orders := mapInsert ob2.orders o2.id o2 }, o2)

/-- `PlaceLimitOrder` with the intended best-first sweep (`walkFill`):
match against the opposite side under the crossing guard, write the
touched resting orders through to the index, and rest the (possibly
partially filled) remainder.  The two sides of the Go
`if order.Side == Bid` are spelled out as two full branches.
`placeLimitOrderGo` below uses the faithful slice-header walk instead;
the two agree whenever no visited level empties. -/
def Orderbook.placeLimitOrder (ob : Orderbook) (order : Order) :
    Orderbook × Order × List Match :=
  let k := PriceToTicks order.price ob.priceTick
  if order.side = Side.bid then
    match walkFill order ob.priceTick (fun l => k < l.priceTicks) ob.asks with
    | (lims, order1, ms, removed) =>
      let idx1 := ms.foldl (fun acc mt => mapReplace acc mt.ask) ob.orders
      let idx2 := removed.foldl (fun acc o => mapReplace acc o) idx1
      let ob2 := { ob with asks := lims, orders := idx2 }
      if order1.isFilled then (ob2, order1, ms)
      else
        match ob2.addOrderToBook order1 k with
        | (ob3, order2) => (ob3, order2, ms)
  else
    match walkFill order ob.priceTick (fun l => l.priceTicks < k) ob.bids with
    | (lims, order1, ms, removed) =>
      let idx1 := ms.foldl (fun acc mt => mapReplace acc mt.bid) ob.orders
      let idx2 := removed.foldl (fun acc o => mapReplace acc o) idx1
      let ob2 := { ob with bids := lims, orders := idx2 }
      if order1.isFilled then (ob2, order1, ms)
      else
        match ob2.addOrderToBook order1 k with
        | (ob3, order2) => (ob3, order2, ms)

/-- `PlaceLimitOrder` with the walk Go actually executes (`walkFillGo`
over the captured slice header, in-place `clearLimit` shifts); the rest
of the plumbing — index write-through and `addOrderToBook` of an
unfilled remainder — is identical to `placeLimitOrder`. -/
def Orderbook.placeLimitOrderGo (ob : Orderbook) (order : Order) :
    Orderbook × Order × List Match :=
  let k := PriceToTicks order.price ob.priceTick
  if order.side = Side.bid then
    match walkFillGo ob.priceTick (fun l => k < l.priceTicks)
        ob.asks.length 0 ob.asks.length ob.asks order with
    | (arr, curLen, order1, ms, removed) =>
      let lims := arr.take curLen
      let idx1 := ms.foldl (fun acc mt => mapReplace acc mt.ask) ob.orders
      let idx2 := removed.foldl (fun acc o => mapReplace acc o) idx1
      let ob2 := { ob with asks := lims, orders := idx2 }
      if order1.isFilled then (ob2, order1, ms)
      else
        match ob2.addOrderToBook order1 k with
        | (ob3, order2) => (ob3, order2, ms)
  else
    match walkFillGo ob.priceTick (fun l => l.priceTicks < k)
        ob.bids.length 0 ob.bids.length ob.bids order with
    | (arr, curLen, order1, ms, removed) =>
      let lims := arr.take curLen
      let idx1 := ms.foldl (fun acc mt => mapReplace acc mt.bid) ob.orders
      let idx2 := removed.foldl (fun acc o => mapReplace acc o) idx1
      let ob2 := { ob with bids := lims, orders := idx2 }
      if order1.isFilled then (ob2, order1, ms)
      else
        match ob2.addOrderToBook order1 k with
        | (ob3, order2) => (ob3, order2, ms)

/-- `Orderbook.GetOrder`. -/
def Orderbook.getOrder (ob : Orderbook) (orderID : Int) : Option Order :=
  mapLookup ob.orders orderID

/-- `Orderbook.CancelOrder`: look up the id, remove the order from its
level through the back-reference (clearing the level if emptied), delete
it from the index and mark it cancelled. -/
def Orderbook.cancelOrder (ob : Orderbook) (orderID : Int) :
    Orderbook × Except Err Order :=
  match mapLookup ob.orders orderID with
  | none => (ob, .error .orderNotFound)
  | some order =>
    let ob1 :=
      match order.limitTicks with
      | none => ob
      | some kt =>
        if order.side = Side.bid then
          match ob.bids.find? (fun l : Limit => l.priceTicks = kt) with
          | none => ob
          | some lim =>
            let lim2 := lim.deleteOrder order
            if lim2.orders.isEmpty then
              { ob with bids := removeLimitFirst (replaceLimit ob.bids kt lim2) kt }
            else { ob with bids := replaceLimit ob.bids kt lim2 }
        else
          match ob.asks.find? (fun l : Limit => l.priceTicks = kt) with
          | none => ob
          | some lim =>
            let lim2 := lim.deleteOrder order
            if lim2.orders.isEmpty then
              { ob with asks := removeLimitFirst (replaceLimit ob.asks kt lim2) kt }
            else { ob with asks := replaceLimit ob.asks kt lim2 }
    ({ ob1 with orders := mapErase ob1.orders orderID },
      .ok { order with state := .cancelled })

/-! ## Matching engine (`internal/engine/engine.go`) -/

/-- The engine price tick for BTC/BRL (`PriceTick = 0.01`). -/
def priceTickC : ℚ := 1 / 100

/-- The engine amount tick (`AmountTick = 0.00000001`). -/
def amountTickC : ℚ := 1 / 100000000

/-- The minimum bid refund (`minRefundBRL = 0.01`). -/
def minRefundBRL : ℚ := 1 / 100

/-- A trading pair. -/
structure Pair where
  base : String
  quote : String
deriving DecidableEq, Repr

/-- `Pair.IsValid`. -/
def Pair.isValid (p : Pair) : Bool :=
  ¬ p.base = "" ∧ ¬ p.quote = "" ∧ p.quote = "BRL"

/-- `Pair.String`. -/
def Pair.key (p : Pair) : String := p.base ++ "/" ++ p.quote

/-- The engine state: per-pair books, the ledger, and the global order-id
counter (`orderIDCounter`, threaded explicitly). -/
structure EngState where
  books : List (String × Orderbook)
  accounts : Manager
  nextId : Int
deriving DecidableEq, Repr

/-- Lookup in the per-pair book map. -/
def booksLookup (bs : List (String × Orderbook)) (k : String) : Option Orderbook :=
  (bs.find? (fun e => e.1 = k)).map (·.2)

/-- Replace-or-insert in the per-pair book map. -/
def booksInsert (bs : List (String × Orderbook)) (k : String) (ob : Orderbook) :
    List (String × Orderbook) :=
  if (bs.find? (fun e => e.1 = k)).isSome then
    bs.map (fun e => if e.1 = k then (k, ob) else e)
  else (k, ob) :: bs

/-- `executeTransfer`: settle one match (seller pays base from locked and
receives quote; buyer pays quote from locked and receives base). -/
def executeTransfer (m : Manager) (pr : Pair) (mt : Match) : Manager × Option Err :=
  let buyer := mt.bid.userID
  let seller := mt.ask.userID
  let baseAmount := mt.sizeFilled
  let quoteAmount := mt.sizeFilled * mt.price
  match m.debitLocked seller pr.base baseAmount with
  | (m1, some _) => (m1, some .transferFailed)
  | (m1, none) =>
    match m1.credit seller pr.quote quoteAmount with
    | (m2, some _) => (m2, some .transferFailed)
    | (m2, none) =>
      match m2.debitLocked buyer pr.quote quoteAmount with
      | (m3, some _) => (m3, some .transferFailed)
      | (m3, none) =>
        match m3.credit buyer pr.base baseAmount with
        | (m4, some _) => (m4, some .transferFailed)
        | (m4, none) => (m4, none)

/-- The settlement loop of `PlaceOrder` step 5: transfers in match order,
stopping at the first failure. -/
def settleLoop (m : Manager) (pr : Pair) : List Match → Manager × Option Err
  | [] => (m, none)
  | mt :: ms =>
    match executeTransfer m pr mt with
    | (m1, none) => settleLoop m1 pr ms
    | (m1, some e) => (m1, some e)

/-- `Σ size × trade_price` over a placement's matches. -/
def executedQuoteOf (ms : List Match) : ℚ :=
  ms.foldl (fun s mt => s + mt.sizeFilled * mt.price) 0

/-- `refundBidDifference`: for a bid with at least one match, unlock
`initial_lock − executed − still_locked` of quote when it reaches the
minimum refund. -/
def refundBidDifference (m : Manager) (pr : Pair) (userID : String) (order : Order)
    (ms : List Match) : Manager × Option Err :=
  if ¬ order.side = Side.bid ∨ ms = [] then (m, none)
  else
    let executedQuote := executedQuoteOf ms
    let initialLock := order.price * order.amount
    let stillLocked := order.price * order.remaining
    let refund := initialLock - executedQuote - stillLocked
    if minRefundBRL ≤ refund then
      match m.unlock userID pr.quote refund with
      | (m1, some e) => (m1, some e)
      | (m1, none) => (m1, none)
    else (m, none)

/-- `Engine.PlaceOrder` (limit placement): validate the pair, floor and
validate price and amount, construct the order, pre-lock, match, settle,
refund. -/
def placeOrder (st : EngState) (userID : String) (pr : Pair) (side : Side)
    (price0 amount0 : ℚ) : EngState × Except Err (Order × List Match) :=
  if ¬ pr.isValid then (st, .error .invalidPair) else
  let price := FloorToTick price0 priceTickC
  if ¬ IsValidTick price priceTickC then (st, .error .invalidPriceTick) else
  let amount := FloorToTick amount0 amountTickC
  if ¬ IsValidTick amount amountTickC then (st, .error .invalidAmountTick) else
  match NewOrder st.nextId userID side price amount with
  | .error e => (st, .error e)
  | .ok order =>
    let st1 : EngState := { st with nextId := st.nextId + 1 }
    let lockAsset := if side = Side.bid then pr.quote else pr.base
    let lockAmount := if side = Side.bid then order.price * order.amount else order.amount
    match st1.accounts.lock userID lockAsset lockAmount with
    | (m1, some e) => ({ st1 with accounts := m1 }, .error e)
    | (m1, none) =>
      let ob := (booksLookup st1.books pr.key).getD NewOrderbook
      match ob.placeLimitOrder order with
      | (ob1, order1, ms) =>
        let st2 : EngState :=
          { st1 with accounts := m1, books := booksInsert st1.books pr.key ob1 }
        match settleLoop st2.accounts pr ms with
        | (m2, some _) =>
          -- best-effort: unlock the initial lock so the user is not stuck
          ({ st2 with accounts := (m2.unlock userID lockAsset lockAmount).1 },
            .error .transferFailed)
        | (m2, none) =>
          match refundBidDifference m2 pr userID order1 ms with
          | (m3, some _) =>
            ({ st2 with accounts := (m3.unlock userID lockAsset lockAmount).1 },
              .error .refundFailed)
          | (m3, none) => ({ st2 with accounts := m3 }, .ok (order1, ms))

/-- `Engine.CancelOrder`: ownership-checked cancel plus unlock of the
remaining reservation. -/
def engCancelOrder (st : EngState) (userID : String) (pr : Pair) (orderID : Int) :
    EngState × Except Err Order :=
  if ¬ pr.isValid then (st, .error .invalidPair) else
  match booksLookup st.books pr.key with
  | none => (st, .error .orderNotFound)
  | some ob =>
    match mapLookup ob.orders orderID with
    | none => (st, .error .orderNotFound)
    | some order =>
      if ¬ order.userID = userID then (st, .error .unauthorized) else
      match ob.cancelOrder orderID with
      | (ob1, .error e) =>
        ({ st with books := booksInsert st.books pr.key ob1 }, .error e)
      | (ob1, .ok cancelled) =>
        let st1 : EngState := { st with books := booksInsert st.books pr.key ob1 }
        let unlockAsset := if cancelled.side = Side.bid then pr.quote else pr.base
        let unlockAmount := if cancelled.side = Side.bid
          then cancelled.remaining * cancelled.price else cancelled.remaining
        if 0 < unlockAmount then
          match st1.accounts.unlock userID unlockAsset unlockAmount with
          | (m1, some e) => ({ st1 with accounts := m1 }, .error e)
          | (m1, none) => ({ st1 with accounts := m1 }, .ok cancelled)
        else (st1, .ok cancelled)

/-! ## Concrete states used by witnesses and counterexamples -/

/-- A placeholder order for `Option.getD` extraction in witnesses. -/
def dfltOrder : Order := ⟨0, "", .bid, .limit, 0, 0, 0, .opened, none⟩

/-- The BTC/BRL pair. -/
def prBB : Pair := ⟨"BTC", "BRL"⟩

/-- A ledger holding 100000 BRL for user 1. -/
def mgrA : Manager := ⟨[(("1", "BRL"), ⟨100000, 0⟩)]⟩

/-- Engine state: user 1 funded with BRL, empty books. -/
def stA : EngState := ⟨[], mgrA, 1⟩

/-- A ledger funding users 1 and 2 with BRL and BTC (the test seed). -/
def mgr2 : Manager :=
  ⟨[(("1", "BRL"), ⟨100000, 0⟩), (("1", "BTC"), ⟨10, 0⟩),
    (("2", "BRL"), ⟨100000, 0⟩), (("2", "BTC"), ⟨10, 0⟩)]⟩

/-- Engine state with the two-user seed. -/
def st2 : EngState := ⟨[], mgr2, 1⟩

/-- The seeded state after user 2 placed an ask of 0.5 BTC at 49000. -/
def st2a : EngState := (placeOrder st2 "2" prBB Side.ask 49000 (1 / 2)).1

/-- The seeded state after user 2 placed an ask of 1 BTC at 50000. -/
def st2b : EngState := (placeOrder st2 "2" prBB Side.ask 50000 1).1

/-- A resting ask above the bid used by the registration witness. -/
def c5rest : Order := ⟨1, "2", .ask, .limit, 51000, 1, 0, .opened, some 5100000⟩

/-- A book holding that single resting ask. -/
def c5ob : Orderbook := ⟨[], [⟨5100000, [c5rest], 1⟩], [(1, c5rest)], 1 / 100⟩

/-- An incoming bid below the resting ask (no cross). -/
def c5inc : Order := ⟨2, "1", .bid, .limit, 50000, 1, 0, .opened, none⟩

/-- Resting asks of user 2 at three consecutive levels (for the walk
counterexample). -/
def c5g1 : Order := ⟨1, "2", .ask, .limit, 49000, 1, 0, .opened, some 4900000⟩

def c5g2 : Order := ⟨2, "2", .ask, .limit, 49500, 1, 0, .opened, some 4950000⟩

def c5g3 : Order := ⟨3, "2", .ask, .limit, 50000, 1, 0, .opened, some 5000000⟩

/-- A book with three one-order ask levels at 49000, 49500, 50000. -/
def c5gob : Orderbook :=
  ⟨[], [⟨4900000, [c5g1], 1⟩, ⟨4950000, [c5g2], 1⟩, ⟨5000000, [c5g3], 1⟩],
    [(1, c5g1), (2, c5g2), (3, c5g3)], 1 / 100⟩

/-- An incoming bid of 3 BTC at 50000 that crosses all three levels. -/
def c5ginc : Order := ⟨4, "1", .bid, .limit, 50000, 3, 0, .opened, none⟩

/-- A resting bid used by the cancel witness. -/
def c7o : Order := ⟨1, "1", .bid, .limit, 50000, 1, 0, .opened, some 5000000⟩

/-- A book holding just that resting bid. -/
def c7ob : Orderbook := ⟨[⟨5000000, [c7o], 1⟩], [], [(1, c7o)], 1 / 100⟩

/-- A resting ask of user 1 at 50000 ticks 5000000 (for the fill witness). -/
def c4o1 : Order := ⟨1, "1", .ask, .limit, 50000, 1, 0, .opened, some 5000000⟩

/-- A resting ask of user 3 at the same level. -/
def c4o3 : Order := ⟨2, "3", .ask, .limit, 50000, 1, 0, .opened, some 5000000⟩

/-- A price level holding the two resting asks in FIFO order. -/
def c4lim : Limit := ⟨5000000, [c4o1, c4o3], 2⟩

/-- An incoming bid of user 1 (same user as the first resting ask). -/
def c4inc : Order := ⟨3, "1", .bid, .limit, 50000, 1, 0, .opened, none⟩

/-- The funded state after user 1 placed a bid of 1 BTC at 50000 on an
empty book (no trades). -/
def c6st1 : EngState := (placeOrder stA "1" prBB Side.bid 50000 1).1

/-- The order that placement rested. -/
def c6o : Order :=
  ((placeOrder stA "1" prBB Side.bid 50000 1).2.toOption.getD (dfltOrder, [])).1

/-- The state after cancelling that order again. -/
def c6st2 : EngState := (engCancelOrder c6st1 "1" prBB c6o.id).1

/-- The cancelled order the cancel returned. -/
def c6c : Order := (engCancelOrder c6st1 "1" prBB c6o.id).2.toOption.getD dfltOrder

/-- The state after user 1 lifts the resting 0.5 BTC ask at 49000 with a
bid of 1 BTC at 50000 (trade, settlement and price-improvement refund). -/
def c1st1 : EngState := (placeOrder st2a "1" prBB Side.bid 50000 1).1

/-- The order-and-trades result of that crossing placement. -/
def c1res : Order × List Match :=
  (placeOrder st2a "1" prBB Side.bid 50000 1).2.toOption.getD (dfltOrder, [])

/-- The state after user 1 cancels the resting order of `c6st1`. -/
def c1cst : EngState := (engCancelOrder c6st1 "1" prBB 1).1

/-- The cancelled order of that cancel. -/
def c1cc : Order := (engCancelOrder c6st1 "1" prBB 1).2.toOption.getD dfltOrder

/-! ## Tick-arithmetic lemmas -/

theorem floor_add_small (x c : ℚ) (hc : 0 ≤ c) (h : Int.fract x + c < 1) :
    ⌊x + c⌋ = ⌊x⌋ := by
  have hfr : Int.fract x = x - ⌊x⌋ := rfl
  rw [Int.floor_eq_iff]
  constructor
  · have := Int.floor_le x
    linarith
  · linarith [hfr ▸ h]

theorem goRound_intCast (m : ℤ) : goRound (m : ℚ) = m := by
  unfold goRound
  by_cases h : (0 : ℚ) ≤ (m : ℚ)
  · rw [if_pos h, Int.floor_int_add]
    norm_num
  · rw [if_neg h]
    have : -(m : ℚ) = ((-m : ℤ) : ℚ) := by push_cast; ring
    rw [this, Int.floor_int_add]
    norm_num

theorem FloorToTick_int_mul (m : ℤ) (t : ℚ) (ht : t ≠ 0) :
    FloorToTick ((m : ℚ) * t) t = (m : ℚ) * t := by
  unfold FloorToTick
  rw [if_neg ht, mul_div_assoc, div_self ht, mul_one, Int.floor_int_add]
  have : ⌊bias⌋ = 0 := by norm_num [bias]
  rw [this]
  norm_num

theorem IsValidTick_FloorToTick (val t : ℚ) :
    IsValidTick (FloorToTick val t) t = true := by
  unfold IsValidTick
  by_cases ht : t = 0
  · simp [ht]
  · rw [if_neg ht]
    have hform : FloorToTick val t = ((⌊val / t + bias⌋ : ℤ) : ℚ) * t := by
      unfold FloorToTick
      rw [if_neg ht]
    rw [decide_eq_true_eq, hform, FloorToTick_int_mul _ _ ht, sub_self, abs_zero]
    norm_num [tickEps]

theorem PriceToTicks_int_mul (m : ℤ) (t : ℚ) (ht : t ≠ 0) (hm : 0 ≤ m) :
    PriceToTicks ((m : ℚ) * t) t = m := by
  unfold PriceToTicks
  rw [if_neg ht, mul_div_assoc, div_self ht, mul_one, goRound_intCast]

/-! ## Ledger lemmas -/

theorem findBal_getOrCreate_self (l : List ((String × String) × Balance)) (u a : String) :
    findBal (getOrCreateList l u a) u a = some ((findBal l u a).getD ⟨0, 0⟩) := by
  unfold getOrCreateList findBal
  cases h : l.find? (fun e => e.1 = (u, a)) with
  | some e => simp [h]
  | none => simp [h, List.find?_cons]

theorem bal_getOrCreate (l : List ((String × String) × Balance)) (u a v b : String) :
    (findBal (getOrCreateList l u a) v b).getD ⟨0, 0⟩
      = (findBal l v b).getD ⟨0, 0⟩ := by
  unfold getOrCreateList findBal
  cases h : l.find? (fun e => e.1 = (u, a)) with
  | some e => simp [h]
  | none =>
    simp only [h, Option.isSome_none, Bool.false_eq_true, if_false]
    by_cases hk : ((u, a) : String × String) = (v, b)
    · rw [hk] at h
      rw [List.find?_cons_of_pos _ (by simp [hk])]
      simp [h]
    · rw [List.find?_cons_of_neg _ (by simpa using hk)]

theorem findBal_setFirst_self (l : List ((String × String) × Balance)) (u a : String)
    (b : Balance) (h : (l.find? (fun e => e.1 = (u, a))).isSome) :
    findBal (setFirst l (u, a) b) u a = some b := by
  induction l with
  | nil => simp [List.find?] at h
  | cons e es ih =>
    by_cases he : e.1 = (u, a)
    · unfold setFirst
      simp [he, findBal, List.find?_cons]
    · unfold setFirst
      rw [if_neg he]
      unfold findBal
      rw [List.find?_cons_of_neg _ (by simpa using he)]
      have h' : (es.find? (fun e => e.1 = (u, a))).isSome := by
        rw [List.find?_cons_of_neg _ (by simpa using he)] at h
        exact h
      exact ih h'

theorem findBal_setFirst_other (l : List ((String × String) × Balance)) (u a v w : String)
    (b : Balance) (hk : ¬ ((v, w) : String × String) = (u, a)) :
    findBal (setFirst l (u, a) b) v w = findBal l v w := by
  induction l with
  | nil => simp [setFirst]
  | cons e es ih =>
    by_cases he : e.1 = (u, a)
    · unfold setFirst
      rw [if_pos he]
      unfold findBal
      have hne : ¬ e.1 = (v, w) := by
        rw [he]
        exact fun hh => hk hh.symm
      rw [List.find?_cons_of_neg _ (by simpa using fun hh : (u, a) = (v, w) => hk hh.symm),
          List.find?_cons_of_neg _ (by simpa using hne)]
    · unfold setFirst
      rw [if_neg he]
      by_cases hv : e.1 = (v, w)
      · unfold findBal
        rw [List.find?_cons_of_pos _ (by simpa using hv),
            List.find?_cons_of_pos _ (by simpa using hv)]
      · unfold findBal
        rw [List.find?_cons_of_neg _ (by simpa using hv),
            List.find?_cons_of_neg _ (by simpa using hv)]
        exact ih

theorem getOrCreate_isSome (l : List ((String × String) × Balance)) (u a : String) :
    ((getOrCreateList l u a).find? (fun e => e.1 = (u, a))).isSome := by
  have h := findBal_getOrCreate_self l u a
  unfold findBal at h
  cases hf : (getOrCreateList l u a).find? (fun e => e.1 = (u, a)) with
  | some e => rfl
  | none => rw [hf] at h; simp at h

theorem bal_sfgoc_self (m : Manager) (u a : String) (nb : Balance) :
    Manager.bal ⟨setFirst (getOrCreateList m.accounts u a) (u, a) nb⟩ u a = nb := by
  unfold Manager.bal
  rw [findBal_setFirst_self _ _ _ _ (getOrCreate_isSome m.accounts u a)]
  rfl

theorem bal_sfgoc_other (m : Manager) (u a : String) (nb : Balance) (v w : String)
    (h : ¬ ((v, w) : String × String) = (u, a)) :
    Manager.bal ⟨setFirst (getOrCreateList m.accounts u a) (u, a) nb⟩ v w = m.bal v w := by
  unfold Manager.bal
  rw [findBal_setFirst_other _ _ _ _ _ _ h]
  exact bal_getOrCreate m.accounts u a v w

theorem bal_goc (m : Manager) (u a v w : String) :
    Manager.bal ⟨getOrCreateList m.accounts u a⟩ v w = m.bal v w := by
  unfold Manager.bal
  exact bal_getOrCreate m.accounts u a v w

theorem credit_ok_bal (m : Manager) (u a : String) (x : ℚ) (m' : Manager)
    (h : m.credit u a x = (m', none)) :
    m'.bal u a = ⟨(m.bal u a).available + x, (m.bal u a).locked⟩
    ∧ ∀ v w, ¬ ((v, w) : String × String) = (u, a) → m'.bal v w = m.bal v w := by
  unfold Manager.credit at h
  cases hv : validateInputs u a x with
  | some e => rw [hv] at h; simp at h
  | none =>
    rw [hv] at h
    simp only at h
    have hm := (congrArg Prod.fst h).symm
    simp only at hm
    subst hm
    have hb : (findBal (getOrCreateList m.accounts u a) u a).getD ⟨0, 0⟩ = m.bal u a :=
      bal_getOrCreate m.accounts u a u a
    rw [hb]
    exact ⟨bal_sfgoc_self m u a _, fun v w hw => bal_sfgoc_other m u a _ v w hw⟩

theorem debit_ok_bal (m : Manager) (u a : String) (x : ℚ) (m' : Manager)
    (h : m.debit u a x = (m', none)) :
    m'.bal u a = ⟨(m.bal u a).available - x, (m.bal u a).locked⟩
    ∧ ∀ v w, ¬ ((v, w) : String × String) = (u, a) → m'.bal v w = m.bal v w := by
  unfold Manager.debit at h
  cases hv : validateInputs u a x with
  | some e => rw [hv] at h; simp at h
  | none =>
    rw [hv] at h
    simp only at h
    split at h
    · simp at h
    · have hm := (congrArg Prod.fst h).symm
      simp only at hm
      subst hm
      have hb : (findBal (getOrCreateList m.accounts u a) u a).getD ⟨0, 0⟩ = m.bal u a :=
        bal_getOrCreate m.accounts u a u a
      rw [hb]
      exact ⟨bal_sfgoc_self m u a _, fun v w hw => bal_sfgoc_other m u a _ v w hw⟩

theorem lock_ok_bal (m : Manager) (u a : String) (x : ℚ) (m' : Manager)
    (h : m.lock u a x = (m', none)) :
    m'.bal u a = ⟨(m.bal u a).available - x, (m.bal u a).locked + x⟩
    ∧ ∀ v w, ¬ ((v, w) : String × String) = (u, a) → m'.bal v w = m.bal v w := by
  unfold Manager.lock at h
  cases hv : validateInputs u a x with
  | some e => rw [hv] at h; simp at h
  | none =>
    rw [hv] at h
    simp only at h
    split at h
    · simp at h
    · have hm := (congrArg Prod.fst h).symm
      simp only at hm
      subst hm
      have hb : (findBal (getOrCreateList m.accounts u a) u a).getD ⟨0, 0⟩ = m.bal u a :=
        bal_getOrCreate m.accounts u a u a
      rw [hb]
      exact ⟨bal_sfgoc_self m u a _, fun v w hw => bal_sfgoc_other m u a _ v w hw⟩

theorem unlock_ok_bal (m : Manager) (u a : String) (x : ℚ) (m' : Manager)
    (h : m.unlock u a x = (m', none)) :
    m'.bal u a = ⟨(m.bal u a).available + x, (m.bal u a).locked - x⟩
    ∧ ∀ v w, ¬ ((v, w) : String × String) = (u, a) → m'.bal v w = m.bal v w := by
  unfold Manager.unlock at h
  cases hv : validateInputs u a x with
  | some e => rw [hv] at h; simp at h
  | none =>
    rw [hv] at h
    simp only at h
    split at h
    · simp at h
    · have hm := (congrArg Prod.fst h).symm
      simp only at hm
      subst hm
      have hb : (findBal (getOrCreateList m.accounts u a) u a).getD ⟨0, 0⟩ = m.bal u a :=
        bal_getOrCreate m.accounts u a u a
      rw [hb]
      exact ⟨bal_sfgoc_self m u a _, fun v w hw => bal_sfgoc_other m u a _ v w hw⟩

theorem debitLocked_ok_bal (m : Manager) (u a : String) (x : ℚ) (m' : Manager)
    (h : m.debitLocked u a x = (m', none)) :
    m'.bal u a = ⟨(m.bal u a).available, (m.bal u a).locked - x⟩
    ∧ ∀ v w, ¬ ((v, w) : String × String) = (u, a) → m'.bal v w = m.bal v w := by
  unfold Manager.debitLocked at h
  cases hv : validateInputs u a x with
  | some e => rw [hv] at h; simp at h
  | none =>
    rw [hv] at h
    simp only at h
    split at h
    · simp at h
    · have hm := (congrArg Prod.fst h).symm
      simp only at hm
      subst hm
      have hb : (findBal (getOrCreateList m.accounts u a) u a).getD ⟨0, 0⟩ = m.bal u a :=
        bal_getOrCreate m.accounts u a u a
      rw [hb]
      exact ⟨bal_sfgoc_self m u a _, fun v w hw => bal_sfgoc_other m u a _ v w hw⟩

theorem debit_err_bal (m : Manager) (u a : String) (x : ℚ) (m' : Manager) (e : Err)
    (h : m.debit u a x = (m', some e)) : ∀ v w, m'.bal v w = m.bal v w := by
  unfold Manager.debit at h
  cases hv : validateInputs u a x with
  | some e2 =>
    rw [hv] at h
    simp only [Prod.mk.injEq] at h
    intro v w
    rw [← h.1]
  | none =>
    rw [hv] at h
    simp only at h
    split at h
    · simp only [Prod.mk.injEq] at h
      intro v w
      rw [← h.1]
      exact bal_goc m u a v w
    · simp at h

theorem lock_err_bal (m : Manager) (u a : String) (x : ℚ) (m' : Manager) (e : Err)
    (h : m.lock u a x = (m', some e)) : ∀ v w, m'.bal v w = m.bal v w := by
  unfold Manager.lock at h
  cases hv : validateInputs u a x with
  | some e2 =>
    rw [hv] at h
    simp only [Prod.mk.injEq] at h
    intro v w
    rw [← h.1]
  | none =>
    rw [hv] at h
    simp only at h
    split at h
    · simp only [Prod.mk.injEq] at h
      intro v w
      rw [← h.1]
      exact bal_goc m u a v w
    · simp at h

theorem unlock_err_bal (m : Manager) (u a : String) (x : ℚ) (m' : Manager) (e : Err)
    (h : m.unlock u a x = (m', some e)) : ∀ v w, m'.bal v w = m.bal v w := by
  unfold Manager.unlock at h
  cases hv : validateInputs u a x with
  | some e2 =>
    rw [hv] at h
    simp only [Prod.mk.injEq] at h
    intro v w
    rw [← h.1]
  | none =>
    rw [hv] at h
    simp only at h
    split at h
    · simp only [Prod.mk.injEq] at h
      intro v w
      rw [← h.1]
      exact bal_goc m u a v w
    · simp at h

theorem debitLocked_err_bal (m : Manager) (u a : String) (x : ℚ) (m' : Manager) (e : Err)
    (h : m.debitLocked u a x = (m', some e)) : ∀ v w, m'.bal v w = m.bal v w := by
  unfold Manager.debitLocked at h
  cases hv : validateInputs u a x with
  | some e2 =>
    rw [hv] at h
    simp only [Prod.mk.injEq] at h
    intro v w
    rw [← h.1]
  | none =>
    rw [hv] at h
    simp only at h
    split at h
    · simp only [Prod.mk.injEq] at h
      intro v w
      rw [← h.1]
      exact bal_goc m u a v w
    · simp at h

/-! ## Per-asset conservation lemmas -/

theorem assetTotal_getOrCreate (m : Manager) (u a A : String) :
    assetTotal ⟨getOrCreateList m.accounts u a⟩ A = assetTotal m A := by
  unfold assetTotal getOrCreateList
  by_cases h : ((m.accounts.find? (fun e => e.1 = (u, a))).isSome)
  · simp [h]
  · simp only [h, if_false, List.foldr_cons]
    split <;> simp

theorem assetTotal_setFirst (l : List ((String × String) × Balance)) (u a : String)
    (nb ob : Balance) (A : String) (hf : findBal l u a = some ob) :
    assetTotal ⟨setFirst l (u, a) nb⟩ A
      = assetTotal ⟨l⟩ A
        + (if a = A then nb.available + nb.locked - (ob.available + ob.locked) else 0) := by
  induction l with
  | nil => simp [findBal] at hf
  | cons e es ih =>
    by_cases he : e.1 = (u, a)
    · have hob : e.2 = ob := by
        unfold findBal at hf
        rw [List.find?_cons_of_pos _ (by simpa using he)] at hf
        simpa using hf
      unfold setFirst
      rw [if_pos he]
      unfold assetTotal
      simp only [List.foldr_cons]
      have ha : e.1.2 = a := by rw [he]
      rw [ha, ← hob]
      split <;> ring
    · have hf' : findBal es u a = some ob := by
        unfold findBal at hf ⊢
        rwa [List.find?_cons_of_neg _ (by simpa using he)] at hf
      unfold setFirst
      rw [if_neg he]
      unfold assetTotal at ih ⊢
      simp only [List.foldr_cons]
      rw [ih hf']
      split <;> ring

theorem credit_ok_assetTotal (m : Manager) (u a : String) (x : ℚ) (m' : Manager)
    (h : m.credit u a x = (m', none)) (A : String) :
    assetTotal m' A = assetTotal m A + (if a = A then x else 0) := by
  unfold Manager.credit at h
  cases hv : validateInputs u a x with
  | some e => rw [hv] at h; simp at h
  | none =>
    rw [hv] at h
    simp only at h
    have hm := (congrArg Prod.fst h).symm
    simp only at hm
    subst hm
    have hsome := findBal_getOrCreate_self m.accounts u a
    rw [assetTotal_setFirst _ u a _ _ A hsome]
    have hgoc : assetTotal ⟨getOrCreateList m.accounts u a⟩ A = assetTotal m A :=
      assetTotal_getOrCreate m u a A
    have hb : (findBal (getOrCreateList m.accounts u a) u a).getD ⟨0, 0⟩
        = (findBal m.accounts u a).getD ⟨0, 0⟩ := by rw [hsome]; rfl
    unfold assetTotal at hgoc ⊢
    rw [hgoc, hb]
    split <;> ring

theorem debit_ok_assetTotal (m : Manager) (u a : String) (x : ℚ) (m' : Manager)
    (h : m.debit u a x = (m', none)) (A : String) :
    assetTotal m' A = assetTotal m A - (if a = A then x else 0) := by
  unfold Manager.debit at h
  cases hv : validateInputs u a x with
  | some e => rw [hv] at h; simp at h
  | none =>
    rw [hv] at h
    simp only at h
    split at h
    · simp at h
    · have hm := (congrArg Prod.fst h).symm
      simp only at hm
      subst hm
      have hsome := findBal_getOrCreate_self m.accounts u a
      rw [assetTotal_setFirst _ u a _ _ A hsome]
      have hgoc : assetTotal ⟨getOrCreateList m.accounts u a⟩ A = assetTotal m A :=
        assetTotal_getOrCreate m u a A
      have hb : (findBal (getOrCreateList m.accounts u a) u a).getD ⟨0, 0⟩
          = (findBal m.accounts u a).getD ⟨0, 0⟩ := by rw [hsome]; rfl
      unfold assetTotal at hgoc ⊢
      rw [hgoc, hb]
      split <;> ring

theorem debitLocked_ok_assetTotal (m : Manager) (u a : String) (x : ℚ) (m' : Manager)
    (h : m.debitLocked u a x = (m', none)) (A : String) :
    assetTotal m' A = assetTotal m A - (if a = A then x else 0) := by
  unfold Manager.debitLocked at h
  cases hv : validateInputs u a x with
  | some e => rw [hv] at h; simp at h
  | none =>
    rw [hv] at h
    simp only at h
    split at h
    · simp at h
    · have hm := (congrArg Prod.fst h).symm
      simp only at hm
      subst hm
      have hsome := findBal_getOrCreate_self m.accounts u a
      rw [assetTotal_setFirst _ u a _ _ A hsome]
      have hgoc : assetTotal ⟨getOrCreateList m.accounts u a⟩ A = assetTotal m A :=
        assetTotal_getOrCreate m u a A
      have hb : (findBal (getOrCreateList m.accounts u a) u a).getD ⟨0, 0⟩
          = (findBal m.accounts u a).getD ⟨0, 0⟩ := by rw [hsome]; rfl
      unfold assetTotal at hgoc ⊢
      rw [hgoc, hb]
      split <;> ring

theorem lock_ok_assetTotal (m : Manager) (u a : String) (x : ℚ) (m' : Manager)
    (h : m.lock u a x = (m', none)) (A : String) :
    assetTotal m' A = assetTotal m A := by
  unfold Manager.lock at h
  cases hv : validateInputs u a x with
  | some e => rw [hv] at h; simp at h
  | none =>
    rw [hv] at h
    simp only at h
    split at h
    · simp at h
    · have hm := (congrArg Prod.fst h).symm
      simp only at hm
      subst hm
      have hsome := findBal_getOrCreate_self m.accounts u a
      rw [assetTotal_setFirst _ u a _ _ A hsome]
      have hgoc : assetTotal ⟨getOrCreateList m.accounts u a⟩ A = assetTotal m A :=
        assetTotal_getOrCreate m u a A
      have hb : (findBal (getOrCreateList m.accounts u a) u a).getD ⟨0, 0⟩
          = (findBal m.accounts u a).getD ⟨0, 0⟩ := by rw [hsome]; rfl
      unfold assetTotal at hgoc ⊢
      rw [hgoc, hb]
      split <;> ring

theorem unlock_ok_assetTotal (m : Manager) (u a : String) (x : ℚ) (m' : Manager)
    (h : m.unlock u a x = (m', none)) (A : String) :
    assetTotal m' A = assetTotal m A := by
  unfold Manager.unlock at h
  cases hv : validateInputs u a x with
  | some e => rw [hv] at h; simp at h
  | none =>
    rw [hv] at h
    simp only at h
    split at h
    · simp at h
    · have hm := (congrArg Prod.fst h).symm
      simp only at hm
      subst hm
      have hsome := findBal_getOrCreate_self m.accounts u a
      rw [assetTotal_setFirst _ u a _ _ A hsome]
      have hgoc : assetTotal ⟨getOrCreateList m.accounts u a⟩ A = assetTotal m A :=
        assetTotal_getOrCreate m u a A
      have hb : (findBal (getOrCreateList m.accounts u a) u a).getD ⟨0, 0⟩
          = (findBal m.accounts u a).getD ⟨0, 0⟩ := by rw [hsome]; rfl
      unfold assetTotal at hgoc ⊢
      rw [hgoc, hb]
      split <;> ring

/-! ## Claim C8 — `get_balance` totality -/

/-- C8 counterexample: on a fresh ledger, `get_balance` of a never-touched
(user, asset) pair returns the absent result (`nil`), not a zeroed
balance, refuting the claim that it "never fails and returns a zeroed
balance rather than an absent/nil result". -/
theorem C8_counterexample :
    Manager.getBalance ⟨[]⟩ "1" "BTC" = none
    ∧ ¬ Manager.getBalance ⟨[]⟩ "1" "BTC" = some ⟨0, 0⟩ := by
  exact ⟨rfl, by simp [Manager.getBalance, findBal]⟩

/-- C8 (amended): `get_balance(u, a)` returns `nil`/absent for a
(user, asset) pair that has never been materialised; once the pair exists
(for example after a successful `credit`) it returns a snapshot copy of
the stored balance. -/
theorem C8_amended_getBalance :
    (∀ u a : String, Manager.getBalance ⟨[]⟩ u a = none)
    ∧ (∀ (m : Manager) (u a : String) (x : ℚ) (m' : Manager),
        m.credit u a x = (m', none) →
        m'.getBalance u a
          = some ⟨(m.bal u a).available + x, (m.bal u a).locked⟩) := by
  constructor
  · intro u a
    rfl
  · intro m u a x m' h
    unfold Manager.credit at h
    cases hv : validateInputs u a x with
    | some e => rw [hv] at h; simp at h
    | none =>
      rw [hv] at h
      simp only at h
      have hm := (congrArg Prod.fst h).symm
      simp only at hm
      subst hm
      unfold Manager.getBalance
      rw [findBal_setFirst_self _ _ _ _ (getOrCreate_isSome m.accounts u a)]
      have hb : (findBal (getOrCreateList m.accounts u a) u a).getD ⟨0, 0⟩
          = m.bal u a := bal_getOrCreate m.accounts u a u a
      rw [hb]

/-- C8 witness: crediting 5 BRL to the seeded user and reading the balance
back through the amended theorem. -/
theorem C8_witness :
    Manager.getBalance (Manager.credit mgrA "1" "BRL" 5).1 "1" "BRL"
      = some ⟨(mgrA.bal "1" "BRL").available + 5, (mgrA.bal "1" "BRL").locked⟩ :=
  C8_amended_getBalance.2 mgrA "1" "BRL" 5 (Manager.credit mgrA "1" "BRL" 5).1 rfl

/-! ## Claim C10 — ledger primitives mutate nothing on the error path -/

/-- C10: whenever `debit`, `lock`, `unlock` or `debit_locked` returns an
error (validation or insufficiency), the available and locked amounts of
every (user, asset) balance are exactly as before the call.  (The
insufficiency path may lazily materialise a zero entry for the touched
pair, which leaves every observable amount unchanged.) -/
theorem C10_ledger_error_atomicity :
    (∀ (m : Manager) (u a : String) (x : ℚ) (m' : Manager) (e : Err),
        m.debit u a x = (m', some e) → ∀ v w, m'.bal v w = m.bal v w)
    ∧ (∀ (m : Manager) (u a : String) (x : ℚ) (m' : Manager) (e : Err),
        m.lock u a x = (m', some e) → ∀ v w, m'.bal v w = m.bal v w)
    ∧ (∀ (m : Manager) (u a : String) (x : ℚ) (m' : Manager) (e : Err),
        m.unlock u a x = (m', some e) → ∀ v w, m'.bal v w = m.bal v w)
    ∧ (∀ (m : Manager) (u a : String) (x : ℚ) (m' : Manager) (e : Err),
        m.debitLocked u a x = (m', some e) → ∀ v w, m'.bal v w = m.bal v w) :=
  ⟨debit_err_bal, lock_err_bal, unlock_err_bal, debitLocked_err_bal⟩

/-- C10 witness: concrete failing calls of all four primitives (debit and
lock on an empty ledger, unlock and debit-locked on a funded but unlocked
ledger), each leaving the observed balance unchanged. -/
theorem C10_witness :
    Manager.bal (Manager.debit ⟨[]⟩ "1" "BTC" 5).1 "1" "BTC" = Manager.bal ⟨[]⟩ "1" "BTC"
    ∧ Manager.bal (Manager.lock ⟨[]⟩ "1" "BTC" 5).1 "1" "BTC" = Manager.bal ⟨[]⟩ "1" "BTC"
    ∧ Manager.bal (Manager.unlock mgrA "1" "BRL" 5).1 "1" "BRL" = Manager.bal mgrA "1" "BRL"
    ∧ Manager.bal (Manager.debitLocked mgrA "1" "BRL" 5).1 "1" "BRL"
        = Manager.bal mgrA "1" "BRL" :=
  ⟨C10_ledger_error_atomicity.1 ⟨[]⟩ "1" "BTC" 5 _ .insufficientBalance rfl "1" "BTC",
   C10_ledger_error_atomicity.2.1 ⟨[]⟩ "1" "BTC" 5 _ .insufficientBalance rfl "1" "BTC",
   C10_ledger_error_atomicity.2.2.1 mgrA "1" "BRL" 5 _ .insufficientLocked rfl "1" "BRL",
   C10_ledger_error_atomicity.2.2.2 mgrA "1" "BRL" 5 _ .insufficientLocked rfl "1" "BRL"⟩

/-! ## Claim C9 — tick round trip -/

/-- C9 counterexample: at `p = 3/2`, `t = 1` (a positive tick),
`ticks_to_price (price_to_ticks p t) t = 2` (round half away from zero)
while `floor_to_tick p t = 1`, refuting the round-trip identity as
claimed for every `p`. -/
theorem C9_counterexample :
    (0 : ℚ) < 1
    ∧ TicksToPrice (PriceToTicks (3 / 2) 1) 1 = 2
    ∧ FloorToTick ((3 : ℚ) / 2) 1 = 1 := by
  refine ⟨by norm_num, ?_, ?_⟩
  · have : (3 / 2 / 1 + 1 / 2 : ℚ) = 2 := by norm_num
    norm_num [TicksToPrice, PriceToTicks, goRound, this]
  · have : ⌊(3 / 2 + bias : ℚ)⌋ = 1 := by
      rw [Int.floor_eq_iff]
      norm_num [bias]
    norm_num [FloorToTick, this]

/-- C9 (amended): the round trip `ticks_to_price (price_to_ticks p t) t =
floor_to_tick p t` holds for `p ≥ 0` and positive `t` whenever the
fractional part of `p / t` is below one half (in particular for every
tick-aligned `p`); when the fractional part reaches one half, rounding
goes up while flooring goes down, as in the counterexample. -/
theorem C9_amended_round_trip (p t : ℚ) (hp : 0 ≤ p) (ht : 0 < t)
    (hf : Int.fract (p / t) < 1 / 2) :
    TicksToPrice (PriceToTicks p t) t = FloorToTick p t := by
  unfold TicksToPrice PriceToTicks FloorToTick goRound
  rw [if_neg ht.ne', if_neg ht.ne', if_pos (div_nonneg hp ht.le)]
  have h1 : ⌊p / t + 1 / 2⌋ = ⌊p / t⌋ :=
    floor_add_small _ _ (by norm_num) (by linarith)
  have hb0 : (0 : ℚ) ≤ bias := by norm_num [bias]
  have hb1 : bias < 1 / 2 := by norm_num [bias]
  have h2 : ⌊p / t + bias⌋ = ⌊p / t⌋ :=
    floor_add_small _ _ hb0 (by linarith)
  rw [h1, h2]

/-! ## Fill-loop lemmas -/

theorem applyFillState_fields (o : Order) :
    (applyFillState o).id = o.id ∧ (applyFillState o).userID = o.userID
    ∧ (applyFillState o).side = o.side ∧ (applyFillState o).otype = o.otype
    ∧ (applyFillState o).price = o.price ∧ (applyFillState o).amount = o.amount
    ∧ (applyFillState o).filledAmount = o.filledAmount
    ∧ (applyFillState o).limitTicks = o.limitTicks := by
  unfold applyFillState
  split
  · exact ⟨rfl, rfl, rfl, rfl, rfl, rfl, rfl, rfl⟩
  split
  · exact ⟨rfl, rfl, rfl, rfl, rfl, rfl, rfl, rfl⟩
  · exact ⟨rfl, rfl, rfl, rfl, rfl, rfl, rfl, rfl⟩

theorem fillLoop_core (p : ℚ) (os : List Order) :
    ∀ (inc inc2 : Order) (pr : List Order) (ms : List Match) (dels : List Order),
      fillLoop inc p os = (inc2, pr, ms, dels) →
      inc2.id = inc.id ∧ inc2.userID = inc.userID ∧ inc2.side = inc.side
      ∧ inc2.otype = inc.otype ∧ inc2.price = inc.price ∧ inc2.amount = inc.amount
      ∧ inc2.limitTicks = inc.limitTicks
      ∧ inc2.filledAmount = inc.filledAmount + sumSizes ms
      ∧ pr.map (fun o => o.id) = os.map (fun o => o.id) := by
  induction os with
  | nil =>
    intro inc inc2 pr ms dels h
    unfold fillLoop at h
    obtain ⟨h1, h2, h3, h4⟩ : inc = inc2 ∧ [] = pr ∧ [] = ms ∧ [] = dels := by
      simpa using h
    subst h1 h2 h3 h4
    simp [sumSizes]
  | cons o rest ih =>
    intro inc inc2 pr ms dels h
    unfold fillLoop at h
    split at h
    · obtain ⟨h1, h2, h3, h4⟩ : inc = inc2 ∧ o :: rest = pr ∧ [] = ms ∧ [] = dels := by
        simpa using h
      subst h1 h2 h3 h4
      simp [sumSizes]
    split at h
    · dsimp only at h
      rcases hrec : fillLoop inc p rest with ⟨i2, r2, ms2, d2⟩
      rw [hrec] at h
      simp only [Prod.mk.injEq] at h
      obtain ⟨h1, h2, h3, h4⟩ := h
      subst h1 h3 h4
      obtain ⟨a1, a2, a3, a4, a5, a6, a7, a8, a9⟩ := ih inc i2 r2 ms2 d2 hrec
      subst h2
      exact ⟨a1, a2, a3, a4, a5, a6, a7, a8, by simp [a9]⟩
    · dsimp only at h
      rcases hrec : fillLoop
          (applyFillState { inc with filledAmount := inc.filledAmount + min inc.remaining o.remaining })
          p rest with ⟨i2, r2, ms2, d2⟩
      rw [hrec] at h
      simp only [Prod.mk.injEq] at h
      obtain ⟨h1, h2, h3, h4⟩ := h
      subst h1 h3
      obtain ⟨a1, a2, a3, a4, a5, a6, a7, a8, a9⟩ := ih _ i2 r2 ms2 d2 hrec
      obtain ⟨f1, f2, f3, f4, f5, f6, f7, f8⟩ := applyFillState_fields
        { inc with filledAmount := inc.filledAmount + min inc.remaining o.remaining }
      subst h2
      refine ⟨by rw [a1, f1], by rw [a2, f2], by rw [a3, f3], by rw [a4, f4],
        by rw [a5, f5], by rw [a6, f6], by rw [a7, f8], ?_, ?_⟩
      case refine_2 =>
        simp only [List.map_cons, a9]
        rw [(applyFillState_fields
          { o with filledAmount := o.filledAmount + min inc.remaining o.remaining }).1]
      rw [a8, f7]
      simp only [sumSizes, List.foldr_cons]
      have : sumSizes ms2 = List.foldr (fun m s => m.sizeFilled + s) 0 ms2 := rfl
      rw [← this]
      split <;> ring

theorem fillLoop_no_matches (p : ℚ) (os : List Order) :
    ∀ (inc inc2 : Order) (pr : List Order) (dels : List Order),
      fillLoop inc p os = (inc2, pr, [], dels) →
      inc2 = inc ∧ pr = os ∧ dels = [] := by
  induction os with
  | nil =>
    intro inc inc2 pr dels h
    unfold fillLoop at h
    obtain ⟨h1, h2, h4⟩ : inc = inc2 ∧ [] = pr ∧ [] = dels := by simpa using h
    exact ⟨h1.symm, h2.symm, h4.symm⟩
  | cons o rest ih =>
    intro inc inc2 pr dels h
    unfold fillLoop at h
    split at h
    · obtain ⟨h1, h2, h4⟩ : inc = inc2 ∧ o :: rest = pr ∧ [] = dels := by simpa using h
      exact ⟨h1.symm, h2.symm, h4.symm⟩
    split at h
    · dsimp only at h
      rcases hrec : fillLoop inc p rest with ⟨i2, r2, ms2, d2⟩
      rw [hrec] at h
      simp only [Prod.mk.injEq] at h
      obtain ⟨h1, h2, h3, h4⟩ := h
      subst h1 h4
      obtain ⟨b1, b2, b3⟩ := ih inc i2 r2 d2 (h3 ▸ hrec)
      subst b1 b2 b3
      exact ⟨rfl, h2.symm, rfl⟩
    · dsimp only at h
      rcases hrec : fillLoop
          (applyFillState { inc with filledAmount := inc.filledAmount + min inc.remaining o.remaining })
          p rest with ⟨i2, r2, ms2, d2⟩
      rw [hrec] at h
      simp only [Prod.mk.injEq] at h
      exact absurd h.2.2.1 (by simp)

theorem fillLoop_filter (p : ℚ) (uid : String) (os : List Order) :
    ∀ (inc inc2 : Order) (pr : List Order) (ms : List Match) (dels : List Order),
      fillLoop inc p os = (inc2, pr, ms, dels) → inc.userID = uid →
      pr.filter (fun o => o.userID = uid) = os.filter (fun o => o.userID = uid) := by
  induction os with
  | nil =>
    intro inc inc2 pr ms dels h hu
    unfold fillLoop at h
    obtain ⟨-, h2, -, -⟩ : inc = inc2 ∧ [] = pr ∧ [] = ms ∧ [] = dels := by simpa using h
    rw [← h2]
  | cons o rest ih =>
    intro inc inc2 pr ms dels h hu
    unfold fillLoop at h
    split at h
    · obtain ⟨-, h2, -, -⟩ : inc = inc2 ∧ o :: rest = pr ∧ [] = ms ∧ [] = dels := by
        simpa using h
      rw [← h2]
    split at h
    case isTrue hsame =>
      dsimp only at h
      rcases hrec : fillLoop inc p rest with ⟨i2, r2, ms2, d2⟩
      rw [hrec] at h
      simp only [Prod.mk.injEq] at h
      obtain ⟨h1, h2, h3, h4⟩ := h
      subst h2
      simp only [List.filter_cons]
      rw [ih inc i2 r2 ms2 d2 hrec hu]
    case isFalse hdiff =>
      dsimp only at h
      rcases hrec : fillLoop
          (applyFillState { inc with filledAmount := inc.filledAmount + min inc.remaining o.remaining })
          p rest with ⟨i2, r2, ms2, d2⟩
      rw [hrec] at h
      simp only [Prod.mk.injEq] at h
      obtain ⟨h1, h2, h3, h4⟩ := h
      subst h2
      have hu1 : (applyFillState
          { inc with filledAmount := inc.filledAmount + min inc.remaining o.remaining }).userID
          = uid := by
        rw [(applyFillState_fields _).2.1]
        exact hu
      have ho1 : (applyFillState
          { o with filledAmount := o.filledAmount + min inc.remaining o.remaining }).userID
          = o.userID := (applyFillState_fields _).2.1
      simp only [List.filter_cons, ho1]
      rw [hu] at hdiff
      simp only [hdiff]
      simp only [decide_eq_true_eq, if_neg hdiff]
      exact ih _ i2 r2 ms2 d2 hrec hu1

theorem fillLoop_dels (p : ℚ) (os : List Order) :
    ∀ (inc inc2 : Order) (pr : List Order) (ms : List Match) (dels : List Order),
      fillLoop inc p os = (inc2, pr, ms, dels) →
      ∀ d ∈ dels, d ∈ pr ∧ ¬ d.userID = inc.userID := by
  induction os with
  | nil =>
    intro inc inc2 pr ms dels h
    unfold fillLoop at h
    obtain ⟨-, -, -, h4⟩ : inc = inc2 ∧ [] = pr ∧ [] = ms ∧ [] = dels := by simpa using h
    rw [← h4]
    intro d hd
    cases hd
  | cons o rest ih =>
    intro inc inc2 pr ms dels h
    unfold fillLoop at h
    split at h
    · obtain ⟨-, -, -, h4⟩ : inc = inc2 ∧ o :: rest = pr ∧ [] = ms ∧ [] = dels := by
        simpa using h
      rw [← h4]
      intro d hd
      cases hd
    split at h
    case isTrue hsame =>
      dsimp only at h
      rcases hrec : fillLoop inc p rest with ⟨i2, r2, ms2, d2⟩
      rw [hrec] at h
      simp only [Prod.mk.injEq] at h
      obtain ⟨h1, h2, h3, h4⟩ := h
      subst h2 h4
      intro d hd
      obtain ⟨hmem, hne⟩ := ih inc i2 r2 ms2 d2 hrec d hd
      exact ⟨List.mem_cons_of_mem _ hmem, hne⟩
    case isFalse hdiff =>
      dsimp only at h
      rcases hrec : fillLoop
          (applyFillState { inc with filledAmount := inc.filledAmount + min inc.remaining o.remaining })
          p rest with ⟨i2, r2, ms2, d2⟩
      rw [hrec] at h
      simp only [Prod.mk.injEq] at h
      obtain ⟨h1, h2, h3, h4⟩ := h
      subst h2 h4
      have hu1 : (applyFillState
          { inc with filledAmount := inc.filledAmount + min inc.remaining o.remaining }).userID
          = inc.userID := (applyFillState_fields _).2.1
      have ho1 : (applyFillState
          { o with filledAmount := o.filledAmount + min inc.remaining o.remaining }).userID
          = o.userID := (applyFillState_fields _).2.1
      intro d hd
      have hd' : d = applyFillState
            { o with filledAmount := o.filledAmount + min inc.remaining o.remaining }
          ∨ d ∈ d2 := by
        by_cases hf : (applyFillState
            { o with filledAmount := o.filledAmount + min inc.remaining o.remaining }).isFilled = true
        · rw [if_pos hf] at hd
          rcases List.mem_cons.mp hd with hd1 | hd1
          · exact Or.inl hd1
          · exact Or.inr hd1
        · rw [if_neg hf] at hd
          exact Or.inr hd
      rcases hd' with rfl | hd'
      · exact ⟨List.mem_cons_self _ _, by rw [ho1]; exact hdiff⟩
      · obtain ⟨hmem, hne⟩ := ih _ i2 r2 ms2 d2 hrec d hd'
        rw [hu1] at hne
        exact ⟨List.mem_cons_of_mem _ hmem, hne⟩

theorem fillLoop_matches (p : ℚ) (os : List Order) :
    ∀ (inc inc2 : Order) (pr : List Order) (ms : List Match) (dels : List Order),
      fillLoop inc p os = (inc2, pr, ms, dels) →
      0 ≤ inc.filledAmount →
      (∀ o ∈ os, 0 ≤ o.filledAmount ∧ o.filledAmount < o.amount) →
      ∀ mt ∈ ms,
        0 < mt.sizeFilled
        ∧ mt.sizeFilled ≤ mt.bid.amount ∧ mt.sizeFilled ≤ mt.ask.amount
        ∧ ¬ mt.bid.userID = mt.ask.userID
        ∧ mt.price = p
        ∧ (inc.side = Side.bid → mt.bid.userID = inc.userID ∧ ¬ mt.ask.userID = inc.userID)
        ∧ (¬ inc.side = Side.bid → mt.ask.userID = inc.userID ∧ ¬ mt.bid.userID = inc.userID) := by
  induction os with
  | nil =>
    intro inc inc2 pr ms dels h h0 hwf
    unfold fillLoop at h
    obtain ⟨-, -, h3, -⟩ : inc = inc2 ∧ [] = pr ∧ [] = ms ∧ [] = dels := by simpa using h
    rw [← h3]
    intro mt hmt
    cases hmt
  | cons o rest ih =>
    intro inc inc2 pr ms dels h h0 hwf
    unfold fillLoop at h
    split at h
    · obtain ⟨-, -, h3, -⟩ : inc = inc2 ∧ o :: rest = pr ∧ [] = ms ∧ [] = dels := by
        simpa using h
      rw [← h3]
      intro mt hmt
      cases hmt
    split at h
    case isTrue hsame =>
      dsimp only at h
      rcases hrec : fillLoop inc p rest with ⟨i2, r2, ms2, d2⟩
      rw [hrec] at h
      simp only [Prod.mk.injEq] at h
      obtain ⟨h1, h2, h3, h4⟩ := h
      subst h3
      exact ih inc i2 r2 ms2 d2 hrec h0 (fun x hx => hwf x (List.mem_cons_of_mem _ hx))
    case isFalse hdiff =>
      rename_i hnf
      dsimp only at h
      rcases hrec : fillLoop
          (applyFillState { inc with filledAmount := inc.filledAmount + min inc.remaining o.remaining })
          p rest with ⟨i2, r2, ms2, d2⟩
      rw [hrec] at h
      simp only [Prod.mk.injEq] at h
      obtain ⟨h1, h2, h3, h4⟩ := h
      subst h3
      have hincrem : 0 < inc.remaining := by
        unfold Order.isFilled at hnf
        simp only [decide_eq_true_eq, not_le] at hnf
        unfold Order.remaining
        linarith
      have horem : 0 < o.remaining := by
        obtain ⟨hw1, hw2⟩ := hwf o (List.mem_cons_self _ _)
        unfold Order.remaining
        linarith
      have hsz : 0 < min inc.remaining o.remaining := lt_min hincrem horem
      have hszi : min inc.remaining o.remaining ≤ inc.amount := by
        have ha : min inc.remaining o.remaining ≤ inc.remaining := min_le_left _ _
        have hb : inc.remaining ≤ inc.amount := by
          unfold Order.remaining
          linarith
        linarith
      have hszo : min inc.remaining o.remaining ≤ o.amount := by
        obtain ⟨hw1, hw2⟩ := hwf o (List.mem_cons_self _ _)
        have ha : min inc.remaining o.remaining ≤ o.remaining := min_le_right _ _
        have hb : o.remaining ≤ o.amount := by
          unfold Order.remaining
          linarith
        linarith
      have fi := applyFillState_fields
        { inc with filledAmount := inc.filledAmount + min inc.remaining o.remaining }
      have fo := applyFillState_fields
        { o with filledAmount := o.filledAmount + min inc.remaining o.remaining }
      intro mt hmt
      rcases List.mem_cons.mp hmt with rfl | hmt'
      · constructor
        · split <;> exact hsz
        constructor
        · split
          · simp only [fi.2.2.2.2.2.1]
            exact hszi
          · simp only [fo.2.2.2.2.2.1]
            exact hszo
        constructor
        · split
          · simp only [fo.2.2.2.2.2.1]
            exact hszo
          · simp only [fi.2.2.2.2.2.1]
            exact hszi
        constructor
        · split
          · simp only [fi.2.1, fo.2.1]
            exact fun hh => hdiff hh.symm
          · simp only [fi.2.1, fo.2.1]
            exact hdiff
        constructor
        · split <;> rfl
        constructor
        · intro hside
          rw [if_pos hside]
          exact ⟨fi.2.1, by rw [fo.2.1]; exact hdiff⟩
        · intro hside
          rw [if_neg hside]
          exact ⟨fi.2.1, by rw [fo.2.1]; exact hdiff⟩
      · have h0' : 0 ≤ (applyFillState
            { inc with filledAmount := inc.filledAmount + min inc.remaining o.remaining }).filledAmount := by
          rw [fi.2.2.2.2.2.2.1]
          simp only
          linarith
        have res := ih _ i2 r2 ms2 d2 hrec h0'
          (fun x hx => hwf x (List.mem_cons_of_mem _ hx)) mt hmt'
        refine ⟨res.1, res.2.1, res.2.2.1, res.2.2.2.1, res.2.2.2.2.1, ?_, ?_⟩
        · intro hside
          have := res.2.2.2.2.2.1 (by rw [fi.2.2.1]; exact hside)
          rw [fi.2.1] at this
          exact this
        · intro hside
          have := res.2.2.2.2.2.2 (by rw [fi.2.2.1]; exact hside)
          rw [fi.2.1] at this
          exact this

theorem fillLoop_fifo (p : ℚ) (os : List Order) :
    ∀ (inc inc2 : Order) (pr : List Order) (ms : List Match) (dels : List Order),
      fillLoop inc p os = (inc2, pr, ms, dels) →
      (ms.map (fun mt => (if inc.side = Side.bid then mt.ask else mt.bid).id)).Sublist
        (os.map (fun o => o.id)) := by
  induction os with
  | nil =>
    intro inc inc2 pr ms dels h
    unfold fillLoop at h
    obtain ⟨-, -, h3, -⟩ : inc = inc2 ∧ [] = pr ∧ [] = ms ∧ [] = dels := by simpa using h
    rw [← h3]
    simp
  | cons o rest ih =>
    intro inc inc2 pr ms dels h
    unfold fillLoop at h
    split at h
    · obtain ⟨-, -, h3, -⟩ : inc = inc2 ∧ o :: rest = pr ∧ [] = ms ∧ [] = dels := by
        simpa using h
      rw [← h3]
      simp
    split at h
    case isTrue hsame =>
      dsimp only at h
      rcases hrec : fillLoop inc p rest with ⟨i2, r2, ms2, d2⟩
      rw [hrec] at h
      simp only [Prod.mk.injEq] at h
      obtain ⟨h1, h2, h3, h4⟩ := h
      subst h3
      exact (ih inc i2 r2 ms2 d2 hrec).cons o.id
    case isFalse hdiff =>
      dsimp only at h
      rcases hrec : fillLoop
          (applyFillState { inc with filledAmount := inc.filledAmount + min inc.remaining o.remaining })
          p rest with ⟨i2, r2, ms2, d2⟩
      rw [hrec] at h
      simp only [Prod.mk.injEq] at h
      obtain ⟨h1, h2, h3, h4⟩ := h
      subst h3
      have fi := applyFillState_fields
        { inc with filledAmount := inc.filledAmount + min inc.remaining o.remaining }
      have fo := applyFillState_fields
        { o with filledAmount := o.filledAmount + min inc.remaining o.remaining }
      have hside : (applyFillState
          { inc with filledAmount := inc.filledAmount + min inc.remaining o.remaining }).side
          = inc.side := fi.2.2.1
      have htail := ih _ i2 r2 ms2 d2 hrec
      rw [hside] at htail
      simp only [List.map_cons]
      have hhead : (if inc.side = Side.bid
          then (if inc.side = Side.bid
            then (⟨applyFillState { inc with filledAmount := inc.filledAmount + min inc.remaining o.remaining },
                   applyFillState { o with filledAmount := o.filledAmount + min inc.remaining o.remaining },
                   p, min inc.remaining o.remaining⟩ : Match)
            else ⟨applyFillState { o with filledAmount := o.filledAmount + min inc.remaining o.remaining },
                   applyFillState { inc with filledAmount := inc.filledAmount + min inc.remaining o.remaining },
                   p, min inc.remaining o.remaining⟩).ask
          else (if inc.side = Side.bid
            then (⟨applyFillState { inc with filledAmount := inc.filledAmount + min inc.remaining o.remaining },
                   applyFillState { o with filledAmount := o.filledAmount + min inc.remaining o.remaining },
                   p, min inc.remaining o.remaining⟩ : Match)
            else ⟨applyFillState { o with filledAmount := o.filledAmount + min inc.remaining o.remaining },
                   applyFillState { inc with filledAmount := inc.filledAmount + min inc.remaining o.remaining },
                   p, min inc.remaining o.remaining⟩).bid).id = o.id := by
        by_cases hb : inc.side = Side.bid
        · simp only [if_pos hb]
          exact fo.1
        · simp only [if_neg hb]
          exact fo.1
      rw [hhead]
      exact htail.cons₂ o.id

/-! ## Level-fill lemmas -/

theorem delOrd_some (i : Int) :
    ∀ (l r : List Order), delOrd l i = some r →
      ∃ l1 e l2, l = l1 ++ e :: l2 ∧ e.id = i ∧ r = l1 ++ l2 := by
  intro l
  induction l with
  | nil => intro r h; simp [delOrd] at h
  | cons x xs ih =>
    intro r h
    unfold delOrd at h
    split at h
    case isTrue hx =>
      refine ⟨[], x, xs, by simp, hx, ?_⟩
      simpa using h.symm
    case isFalse hx =>
      cases hd : delOrd xs i with
      | none => rw [hd] at h; simp at h
      | some r2 =>
        rw [hd] at h
        simp only [Option.map_some', Option.some.injEq] at h
        obtain ⟨l1, e, l2, he1, he2, he3⟩ := ih r2 hd
        exact ⟨x :: l1, e, l2, by simp [he1], he2, by rw [← h, he3]; simp⟩

theorem deleteOrder_filter_step (lm : Limit) (d : Order) (uid : String)
    (h : ∀ y ∈ lm.orders, y.id = d.id → ¬ y.userID = uid) :
    (lm.deleteOrder d).orders.filter (fun o => o.userID = uid)
      = lm.orders.filter (fun o => o.userID = uid) := by
  unfold Limit.deleteOrder
  cases hd : delOrd lm.orders d.id with
  | none => rfl
  | some r =>
    obtain ⟨l1, e, l2, he1, he2, he3⟩ := delOrd_some d.id lm.orders r hd
    have heu : ¬ e.userID = uid := h e (by rw [he1]; simp) he2
    simp only [he3, he1, List.filter_append, List.filter_cons]
    simp [heu]

theorem deleteOrder_orders_sublist (lm : Limit) (d : Order) :
    (lm.deleteOrder d).orders.Sublist lm.orders := by
  unfold Limit.deleteOrder
  cases hd : delOrd lm.orders d.id with
  | none => simp
  | some r =>
    obtain ⟨l1, e, l2, he1, he2, he3⟩ := delOrd_some d.id lm.orders r hd
    simp only [he3, he1]
    exact (List.sublist_cons_self e l2).append_left l1

theorem foldl_deleteOrder_filter (uid : String) :
    ∀ (dels : List Order) (lm : Limit),
      (∀ d ∈ dels, ∀ y ∈ lm.orders, y.id = d.id → ¬ y.userID = uid) →
      (dels.foldl (fun l o => l.deleteOrder o) lm).orders.filter (fun o => o.userID = uid)
        = lm.orders.filter (fun o => o.userID = uid) := by
  intro dels
  induction dels with
  | nil => intro lm h; rfl
  | cons d ds ih =>
    intro lm h
    have hstep := deleteOrder_filter_step lm d uid
      (fun y hy => h d (List.mem_cons_self _ _) y hy)
    have hsub := deleteOrder_orders_sublist lm d
    simp only [List.foldl_cons]
    rw [ih (lm.deleteOrder d)
      (fun d' hd' y hy => h d' (List.mem_cons_of_mem _ hd') y (hsub.mem hy))]
    exact hstep

theorem sumSizes_nonneg (ms : List Match) (h : ∀ mt ∈ ms, 0 ≤ mt.sizeFilled) :
    0 ≤ sumSizes ms := by
  induction ms with
  | nil => simp [sumSizes]
  | cons mt rest ih =>
    unfold sumSizes at ih ⊢
    simp only [List.foldr_cons]
    have h1 := h mt (List.mem_cons_self _ _)
    have h2 := ih (fun x hx => h x (List.mem_cons_of_mem _ hx))
    linarith

theorem fillLoop_filled_le (p : ℚ) (os : List Order) :
    ∀ (inc inc2 : Order) (pr : List Order) (ms : List Match) (dels : List Order),
      fillLoop inc p os = (inc2, pr, ms, dels) →
      inc.filledAmount ≤ inc.amount → inc2.filledAmount ≤ inc.amount := by
  induction os with
  | nil =>
    intro inc inc2 pr ms dels h hle
    unfold fillLoop at h
    obtain ⟨h1, -, -, -⟩ : inc = inc2 ∧ [] = pr ∧ [] = ms ∧ [] = dels := by simpa using h
    rw [← h1]
    exact hle
  | cons o rest ih =>
    intro inc inc2 pr ms dels h hle
    unfold fillLoop at h
    split at h
    · obtain ⟨h1, -, -, -⟩ : inc = inc2 ∧ o :: rest = pr ∧ [] = ms ∧ [] = dels := by
        simpa using h
      rw [← h1]
      exact hle
    split at h
    case isTrue hsame =>
      dsimp only at h
      rcases hrec : fillLoop inc p rest with ⟨i2, r2, ms2, d2⟩
      rw [hrec] at h
      simp only [Prod.mk.injEq] at h
      rw [← h.1]
      exact ih inc i2 r2 ms2 d2 hrec hle
    case isFalse hdiff =>
      rename_i hnf
      dsimp only at h
      rcases hrec : fillLoop
          (applyFillState { inc with filledAmount := inc.filledAmount + min inc.remaining o.remaining })
          p rest with ⟨i2, r2, ms2, d2⟩
      rw [hrec] at h
      simp only [Prod.mk.injEq] at h
      rw [← h.1]
      have fi := applyFillState_fields
        { inc with filledAmount := inc.filledAmount + min inc.remaining o.remaining }
      have hle1 : (applyFillState
          { inc with filledAmount := inc.filledAmount + min inc.remaining o.remaining }).filledAmount
          ≤ (applyFillState
          { inc with filledAmount := inc.filledAmount + min inc.remaining o.remaining }).amount := by
      -- the new fill stays within the amount because the fill size is at most the remainder
        rw [fi.2.2.2.2.2.2.1, fi.2.2.2.2.2.1]
        simp only
        have ha : min inc.remaining o.remaining ≤ inc.remaining := min_le_left _ _
        have hb : inc.remaining = inc.amount - inc.filledAmount := rfl
        linarith
      have := ih _ i2 r2 ms2 d2 hrec hle1
      rw [fi.2.2.2.2.2.1] at this
      simpa using this

theorem fill_core (l : Limit) (incoming inc2 : Order) (t : ℚ) (lim2 : Limit)
    (ms : List Match) (removed : List Order)
    (h : l.fill incoming t = (inc2, lim2, ms, removed)) :
    inc2.id = incoming.id ∧ inc2.userID = incoming.userID ∧ inc2.side = incoming.side
    ∧ inc2.otype = incoming.otype ∧ inc2.price = incoming.price
    ∧ inc2.amount = incoming.amount ∧ inc2.limitTicks = incoming.limitTicks
    ∧ inc2.filledAmount = incoming.filledAmount + sumSizes ms := by
  unfold Limit.fill at h
  dsimp only at h
  rcases hfl : fillLoop incoming (TicksToPrice l.priceTicks t) l.orders
    with ⟨i2, processed, ms2, dels⟩
  rw [hfl] at h
  simp only [Prod.mk.injEq] at h
  obtain ⟨h1, -, h3, -⟩ := h
  subst h1 h3
  have := fillLoop_core _ _ _ _ _ _ _ hfl
  exact ⟨this.1, this.2.1, this.2.2.1, this.2.2.2.1, this.2.2.2.2.1,
    this.2.2.2.2.2.1, this.2.2.2.2.2.2.1, this.2.2.2.2.2.2.2.1⟩

theorem fill_matches (l : Limit) (incoming inc2 : Order) (t : ℚ) (lim2 : Limit)
    (ms : List Match) (removed : List Order)
    (h : l.fill incoming t = (inc2, lim2, ms, removed))
    (hinc : 0 ≤ incoming.filledAmount)
    (hwf : ∀ o ∈ l.orders, 0 ≤ o.filledAmount ∧ o.filledAmount < o.amount) :
    ∀ mt ∈ ms,
      0 < mt.sizeFilled
      ∧ mt.sizeFilled ≤ mt.bid.amount ∧ mt.sizeFilled ≤ mt.ask.amount
      ∧ ¬ mt.bid.userID = mt.ask.userID
      ∧ mt.price = TicksToPrice l.priceTicks t
      ∧ (incoming.side = Side.bid →
          mt.bid.userID = incoming.userID ∧ ¬ mt.ask.userID = incoming.userID)
      ∧ (¬ incoming.side = Side.bid →
          mt.ask.userID = incoming.userID ∧ ¬ mt.bid.userID = incoming.userID) := by
  unfold Limit.fill at h
  dsimp only at h
  rcases hfl : fillLoop incoming (TicksToPrice l.priceTicks t) l.orders
    with ⟨i2, processed, ms2, dels⟩
  rw [hfl] at h
  simp only [Prod.mk.injEq] at h
  obtain ⟨-, -, h3, -⟩ := h
  subst h3
  exact fillLoop_matches _ _ _ _ _ _ _ hfl hinc hwf

theorem fill_filled_le (l : Limit) (incoming inc2 : Order) (t : ℚ) (lim2 : Limit)
    (ms : List Match) (removed : List Order)
    (h : l.fill incoming t = (inc2, lim2, ms, removed))
    (hle : incoming.filledAmount ≤ incoming.amount) :
    inc2.filledAmount ≤ incoming.amount := by
  unfold Limit.fill at h
  dsimp only at h
  rcases hfl : fillLoop incoming (TicksToPrice l.priceTicks t) l.orders
    with ⟨i2, processed, ms2, dels⟩
  rw [hfl] at h
  simp only [Prod.mk.injEq] at h
  obtain ⟨h1, -, -, -⟩ := h
  subst h1
  exact fillLoop_filled_le _ _ _ _ _ _ _ hfl hle

theorem sumSizes_append (a b : List Match) :
    sumSizes (a ++ b) = sumSizes a + sumSizes b := by
  induction a with
  | nil => simp [sumSizes]
  | cons x xs ih =>
    unfold sumSizes at ih ⊢
    simp only [List.cons_append, List.foldr_cons]
    rw [ih]
    ring

theorem walkFill_core (t : ℚ) (cross : Limit → Bool) :
    ∀ (lims : List Limit) (inc : Order) (lims2 : List Limit) (inc2 : Order)
      (ms : List Match) (removed : List Order),
      walkFill inc t cross lims = (lims2, inc2, ms, removed) →
      inc2.id = inc.id ∧ inc2.userID = inc.userID ∧ inc2.side = inc.side
      ∧ inc2.otype = inc.otype ∧ inc2.price = inc.price ∧ inc2.amount = inc.amount
      ∧ inc2.limitTicks = inc.limitTicks
      ∧ inc2.filledAmount = inc.filledAmount + sumSizes ms := by
  intro lims
  induction lims with
  | nil =>
    intro inc lims2 inc2 ms removed h
    unfold walkFill at h
    obtain ⟨-, h2, h3, -⟩ : [] = lims2 ∧ inc = inc2 ∧ [] = ms ∧ [] = removed := by
      simpa using h
    rw [← h2, ← h3]
    simp [sumSizes]
  | cons lim rest ih =>
    intro inc lims2 inc2 ms removed h
    unfold walkFill at h
    split at h
    · obtain ⟨-, h2, h3, -⟩ : lim :: rest = lims2 ∧ inc = inc2 ∧ [] = ms ∧ [] = removed := by
        simpa using h
      rw [← h2, ← h3]
      simp [sumSizes]
    split at h
    · obtain ⟨-, h2, h3, -⟩ : lim :: rest = lims2 ∧ inc = inc2 ∧ [] = ms ∧ [] = removed := by
        simpa using h
      rw [← h2, ← h3]
      simp [sumSizes]
    · rcases hfill : lim.fill inc t with ⟨inc1, lim1, ms1, rem1⟩
      rw [hfill] at h
      dsimp only at h
      rcases hrec : walkFill inc1 t cross rest with ⟨r2, i2, ms2, rm2⟩
      rw [hrec] at h
      have hcore1 := fill_core _ _ _ _ _ _ _ hfill
      have hcore2 := ih inc1 r2 i2 ms2 rm2 hrec
      split at h <;>
      · simp only [Prod.mk.injEq] at h
        obtain ⟨-, h2, h3, -⟩ := h
        subst h2 h3
        refine ⟨by rw [hcore2.1, hcore1.1], by rw [hcore2.2.1, hcore1.2.1],
          by rw [hcore2.2.2.1, hcore1.2.2.1], by rw [hcore2.2.2.2.1, hcore1.2.2.2.1],
          by rw [hcore2.2.2.2.2.1, hcore1.2.2.2.2.1],
          by rw [hcore2.2.2.2.2.2.1, hcore1.2.2.2.2.2.1],
          by rw [hcore2.2.2.2.2.2.2.1, hcore1.2.2.2.2.2.2.1], ?_⟩
        rw [hcore2.2.2.2.2.2.2.2, hcore1.2.2.2.2.2.2.2, sumSizes_append]
        ring

theorem walkFill_matches (t : ℚ) (cross : Limit → Bool) :
    ∀ (lims : List Limit) (inc : Order) (lims2 : List Limit) (inc2 : Order)
      (ms : List Match) (removed : List Order),
      walkFill inc t cross lims = (lims2, inc2, ms, removed) →
      0 ≤ inc.filledAmount →
      (∀ lim ∈ lims, ∀ o ∈ lim.orders, 0 ≤ o.filledAmount ∧ o.filledAmount < o.amount) →
      ∀ mt ∈ ms,
        (∃ lim ∈ lims, cross lim = false ∧ mt.price = TicksToPrice lim.priceTicks t)
        ∧ 0 < mt.sizeFilled
        ∧ (inc.side = Side.bid → mt.bid.userID = inc.userID ∧ ¬ mt.ask.userID = inc.userID)
        ∧ (¬ inc.side = Side.bid → mt.ask.userID = inc.userID ∧ ¬ mt.bid.userID = inc.userID) := by
  intro lims
  induction lims with
  | nil =>
    intro inc lims2 inc2 ms removed h h0 hwf
    unfold walkFill at h
    obtain ⟨-, -, h3, -⟩ : [] = lims2 ∧ inc = inc2 ∧ [] = ms ∧ [] = removed := by
      simpa using h
    rw [← h3]
    intro mt hmt
    cases hmt
  | cons lim rest ih =>
    intro inc lims2 inc2 ms removed h h0 hwf
    unfold walkFill at h
    split at h
    · obtain ⟨-, -, h3, -⟩ : lim :: rest = lims2 ∧ inc = inc2 ∧ [] = ms ∧ [] = removed := by
        simpa using h
      rw [← h3]
      intro mt hmt
      cases hmt
    split at h
    · obtain ⟨-, -, h3, -⟩ : lim :: rest = lims2 ∧ inc = inc2 ∧ [] = ms ∧ [] = removed := by
        simpa using h
      rw [← h3]
      intro mt hmt
      cases hmt
    · rename_i hcross hfilled
      rcases hfill : lim.fill inc t with ⟨inc1, lim1, ms1, rem1⟩
      rw [hfill] at h
      dsimp only at h
      rcases hrec : walkFill inc1 t cross rest with ⟨r2, i2, ms2, rm2⟩
      rw [hrec] at h
      have hcore1 := fill_core _ _ _ _ _ _ _ hfill
      have hm1 := fill_matches _ _ _ _ _ _ _ hfill h0
        (hwf lim (List.mem_cons_self _ _))
      have h01 : 0 ≤ inc1.filledAmount := by
        rw [hcore1.2.2.2.2.2.2.2]
        have := sumSizes_nonneg ms1 (fun x hx => (hm1 x hx).1.le)
        linarith
      have hrecm := ih inc1 r2 i2 ms2 rm2 hrec h01
        (fun l hl => hwf l (List.mem_cons_of_mem _ hl))
      have hcrf : cross lim = false := by
        simpa using hcross
      have main : ∀ mt ∈ ms1 ++ ms2,
          (∃ l ∈ lim :: rest, cross l = false ∧ mt.price = TicksToPrice l.priceTicks t)
          ∧ 0 < mt.sizeFilled
          ∧ (inc.side = Side.bid → mt.bid.userID = inc.userID ∧ ¬ mt.ask.userID = inc.userID)
          ∧ (¬ inc.side = Side.bid →
              mt.ask.userID = inc.userID ∧ ¬ mt.bid.userID = inc.userID) := by
        intro mt hmt
        rcases List.mem_append.mp hmt with hmt1 | hmt2
        · have hh1 := hm1 mt hmt1
          exact ⟨⟨lim, List.mem_cons_self _ _, hcrf, hh1.2.2.2.2.1⟩, hh1.1,
            hh1.2.2.2.2.2.1, hh1.2.2.2.2.2.2⟩
        · have hh2 := hrecm mt hmt2
          refine ⟨?_, hh2.2.1, ?_, ?_⟩
          · obtain ⟨l, hl, hc, hp⟩ := hh2.1
            exact ⟨l, List.mem_cons_of_mem _ hl, hc, hp⟩
          · intro hside
            have := hh2.2.2.1 (by rw [hcore1.2.2.1]; exact hside)
            rw [hcore1.2.1] at this
            exact this
          · intro hside
            have := hh2.2.2.2 (by rw [hcore1.2.2.1]; exact hside)
            rw [hcore1.2.1] at this
            exact this
      split at h <;>
      · simp only [Prod.mk.injEq] at h
        obtain ⟨-, -, h3, -⟩ := h
        rw [← h3]
        exact main

theorem walkFill_filled_le (t : ℚ) (cross : Limit → Bool) :
    ∀ (lims : List Limit) (inc : Order) (lims2 : List Limit) (inc2 : Order)
      (ms : List Match) (removed : List Order),
      walkFill inc t cross lims = (lims2, inc2, ms, removed) →
      inc.filledAmount ≤ inc.amount → inc2.filledAmount ≤ inc.amount := by
  intro lims
  induction lims with
  | nil =>
    intro inc lims2 inc2 ms removed h hle
    unfold walkFill at h
    obtain ⟨-, h2, -, -⟩ : [] = lims2 ∧ inc = inc2 ∧ [] = ms ∧ [] = removed := by
      simpa using h
    rw [← h2]
    exact hle
  | cons lim rest ih =>
    intro inc lims2 inc2 ms removed h hle
    unfold walkFill at h
    split at h
    · obtain ⟨-, h2, -, -⟩ : lim :: rest = lims2 ∧ inc = inc2 ∧ [] = ms ∧ [] = removed := by
        simpa using h
      rw [← h2]
      exact hle
    split at h
    · obtain ⟨-, h2, -, -⟩ : lim :: rest = lims2 ∧ inc = inc2 ∧ [] = ms ∧ [] = removed := by
        simpa using h
      rw [← h2]
      exact hle
    · rcases hfill : lim.fill inc t with ⟨inc1, lim1, ms1, rem1⟩
      rw [hfill] at h
      dsimp only at h
      rcases hrec : walkFill inc1 t cross rest with ⟨r2, i2, ms2, rm2⟩
      rw [hrec] at h
      have hcore1 := fill_core _ _ _ _ _ _ _ hfill
      have hle1 : inc1.filledAmount ≤ inc1.amount := by
        rw [hcore1.2.2.2.2.2.1]
        exact fill_filled_le _ _ _ _ _ _ _ hfill hle
      have := ih inc1 r2 i2 ms2 rm2 hrec hle1
      rw [hcore1.2.2.2.2.2.1] at this
      split at h <;>
      · simp only [Prod.mk.injEq] at h
        rw [← h.2.1]
        exact this

/-! ## Order-book lemmas -/

theorem mapLookup_mapInsert_self (m : List (Int × Order)) (i : Int) (o : Order) :
    mapLookup (mapInsert m i o) i = some o := by
  unfold mapInsert
  by_cases hs : (m.find? (fun e => e.1 = i)).isSome
  · rw [if_pos hs]
    unfold mapLookup
    induction m with
    | nil => simp [List.find?] at hs
    | cons e es ih =>
      by_cases he : e.1 = i
      · simp only [List.map_cons, if_pos he]
        rw [List.find?_cons_of_pos _ (by simp)]
        rfl
      · simp only [List.map_cons, if_neg he]
        rw [List.find?_cons_of_neg _ (by simpa using he)]
        apply ih
        rw [List.find?_cons_of_neg _ (by simpa using he)] at hs
        exact hs
  · rw [if_neg hs]
    unfold mapLookup
    rw [List.find?_cons_of_pos _ (by simp)]
    rfl

theorem insertAsc_mem (x : Limit) (ys : List Limit) : x ∈ insertAsc x ys := by
  induction ys with
  | nil => simp [insertAsc]
  | cons y ys ih =>
    unfold insertAsc
    split
    · exact List.mem_cons_self _ _
    · exact List.mem_cons_of_mem _ ih

theorem insertDesc_mem (x : Limit) (ys : List Limit) : x ∈ insertDesc x ys := by
  induction ys with
  | nil => simp [insertDesc]
  | cons y ys ih =>
    unfold insertDesc
    split
    · exact List.mem_cons_self _ _
    · exact List.mem_cons_of_mem _ ih

theorem addOrderToBook_spec (ob : Orderbook) (o : Order) (k : Int) (ob3 : Orderbook)
    (o2 : Order) (h : ob.addOrderToBook o k = (ob3, o2)) :
    o2 = { o with limitTicks := some k }
    ∧ mapLookup ob3.orders o.id = some o2
    ∧ (∃ lim ∈ (if o.side = Side.bid then ob3.bids else ob3.asks),
        lim.priceTicks = k ∧ o2 ∈ lim.orders) := by
  unfold Orderbook.addOrderToBook at h
  cases hf : (if o.side = Side.bid then ob.bids else ob.asks).find?
      (fun l => l.priceTicks = k) with
  | some lim =>
    rw [hf] at h
    dsimp only at h
    have hlk : lim.priceTicks = k := by simpa using List.find?_some hf
    have hmemlim : lim ∈ (if o.side = Side.bid then ob.bids else ob.asks) :=
      List.mem_of_find?_eq_some hf
    rcases haddo : lim.addOrder o with ⟨lim2, o2b⟩
    rw [haddo] at h
    dsimp only at h
    have hlim2 : lim2.priceTicks = lim.priceTicks ∧ o2b ∈ lim2.orders
        ∧ o2b = { o with limitTicks := some lim.priceTicks } := by
      unfold Limit.addOrder at haddo
      dsimp only at haddo
      simp only [Prod.mk.injEq] at haddo
      obtain ⟨ha1, ha2⟩ := haddo
      refine ⟨by rw [← ha1], by rw [← ha1, ← ha2]; simp, by rw [← ha2]⟩
    simp only [Prod.mk.injEq] at h
    obtain ⟨h1, h2⟩ := h
    have ho2 : o2 = { o with limitTicks := some k } := by
      rw [← h2, hlim2.2.2, hlk]
    have hido : o2b.id = o.id := by rw [hlim2.2.2]
    refine ⟨ho2, ?_, ?_⟩
    · rw [← h1]
      dsimp only
      rw [← hido, mapLookup_mapInsert_self, h2]
    · refine ⟨lim2, ?_, by rw [hlim2.1, hlk], by rw [← h2]; exact hlim2.2.1⟩
      rw [← h1]
      dsimp only
      by_cases hside : o.side = Side.bid
      · simp only [if_pos hside]
        unfold replaceLimit
        have hm : lim ∈ ob.bids := by rw [if_pos hside] at hmemlim; exact hmemlim
        have := List.mem_map_of_mem (fun l => if l.priceTicks = k then lim2 else l) hm
        simpa [hlk] using this
      · simp only [if_neg hside]
        unfold replaceLimit
        have hm : lim ∈ ob.asks := by rw [if_neg hside] at hmemlim; exact hmemlim
        have := List.mem_map_of_mem (fun l => if l.priceTicks = k then lim2 else l) hm
        simpa [hlk] using this
  | none =>
    rw [hf] at h
    dsimp only at h
    rcases haddo : (NewLimit k).addOrder o with ⟨lim2, o2b⟩
    rw [haddo] at h
    dsimp only at h
    have hlim2 : lim2.priceTicks = k ∧ o2b ∈ lim2.orders
        ∧ o2b = { o with limitTicks := some k } := by
      unfold Limit.addOrder NewLimit at haddo
      dsimp only at haddo
      simp only [Prod.mk.injEq] at haddo
      obtain ⟨ha1, ha2⟩ := haddo
      refine ⟨by rw [← ha1], by rw [← ha1, ← ha2]; simp, by rw [← ha2]⟩
    simp only [Prod.mk.injEq] at h
    obtain ⟨h1, h2⟩ := h
    have ho2 : o2 = { o with limitTicks := some k } := by
      rw [← h2, hlim2.2.2]
    have hido : o2b.id = o.id := by rw [hlim2.2.2]
    refine ⟨ho2, ?_, ?_⟩
    · rw [← h1]
      dsimp only
      rw [← hido, mapLookup_mapInsert_self, h2]
    · refine ⟨lim2, ?_, hlim2.1, by rw [← h2]; exact hlim2.2.1⟩
      rw [← h1]
      dsimp only
      by_cases hside : o.side = Side.bid
      · simp only [if_pos hside]
        exact insertDesc_mem _ _
      · simp only [if_neg hside]
        exact insertAsc_mem _ _

theorem placeLimitOrder_side_spec (ob : Orderbook) (order : Order) (ob1 : Orderbook)
    (order1 : Order) (ms : List Match) (lims0 : List Limit) (cross : Limit → Bool)
    (idxf : Match → Order)
    (mk2 : List Limit → List (Int × Order) → Orderbook)
    (h : (match walkFill order ob.priceTick cross lims0 with
      | (lims, o1, ms1, removed) =>
        let idx1 := ms1.foldl (fun acc mt => mapReplace acc (idxf mt)) ob.orders
        let idx2 := removed.foldl (fun acc o => mapReplace acc o) idx1
        let ob2 := mk2 lims idx2
        if o1.isFilled then (ob2, o1, ms1)
        else
          match ob2.addOrderToBook o1 (PriceToTicks order.price ob.priceTick) with
          | (ob3, order2) => (ob3, order2, ms1)) = (ob1, order1, ms)) :
    order1.id = order.id ∧ order1.userID = order.userID ∧ order1.side = order.side
    ∧ order1.price = order.price ∧ order1.amount = order.amount
    ∧ order1.filledAmount = order.filledAmount + sumSizes ms
    ∧ (order.filledAmount ≤ order.amount → order1.filledAmount ≤ order.amount)
    ∧ (order1.isFilled = false →
        mapLookup ob1.orders order.id = some order1
        ∧ order1.limitTicks = some (PriceToTicks order.price ob.priceTick)
        ∧ ∃ lim ∈ (if order1.side = Side.bid then ob1.bids else ob1.asks),
            lim.priceTicks = PriceToTicks order.price ob.priceTick
            ∧ order1 ∈ lim.orders) := by
  rcases hw : walkFill order ob.priceTick cross lims0 with ⟨lims, o1, ms1, removed⟩
  rw [hw] at h
  dsimp only at h
  have hcore := walkFill_core _ _ _ _ _ _ _ _ hw
  split at h
  case isTrue hfil =>
    simp only [Prod.mk.injEq] at h
    obtain ⟨-, h2, h3⟩ := h
    subst h2 h3
    refine ⟨hcore.1, hcore.2.1, hcore.2.2.1, hcore.2.2.2.2.1, hcore.2.2.2.2.2.1,
      hcore.2.2.2.2.2.2.2, fun hle => walkFill_filled_le _ _ _ _ _ _ _ _ hw hle, ?_⟩
    intro hnf
    rw [hfil] at hnf
    cases hnf
  case isFalse hfil =>
    simp only [Prod.mk.injEq] at h
    obtain ⟨h1, h2, h3⟩ := h
    subst h3
    set OB2 := mk2 lims (List.foldl (fun acc o => mapReplace acc o)
        (List.foldl (fun acc mt => mapReplace acc (idxf mt)) ob.orders ms1) removed) with hOB2
    set X := OB2.addOrderToBook o1 (PriceToTicks order.price ob.priceTick) with hX
    obtain ⟨ho2, hlkp, hmem⟩ := addOrderToBook_spec OB2 o1
      (PriceToTicks order.price ob.priceTick) X.1 X.2 (by rw [← hX])
    rw [h1] at hlkp hmem
    rw [h2] at ho2 hlkp hmem
    have hid : order1.id = o1.id := by rw [ho2]
    have huid : order1.userID = o1.userID := by rw [ho2]
    have hsd : order1.side = o1.side := by rw [ho2]
    have hpr : order1.price = o1.price := by rw [ho2]
    have ham : order1.amount = o1.amount := by rw [ho2]
    have hfa : order1.filledAmount = o1.filledAmount := by rw [ho2]
    refine ⟨by rw [hid, hcore.1], by rw [huid, hcore.2.1], by rw [hsd, hcore.2.2.1],
      by rw [hpr, hcore.2.2.2.2.1], by rw [ham, hcore.2.2.2.2.2.1],
      by rw [hfa, hcore.2.2.2.2.2.2.2],
      (fun hle => by rw [hfa]; exact walkFill_filled_le _ _ _ _ _ _ _ _ hw hle), ?_⟩
    intro hnf
    refine ⟨?_, by rw [ho2], ?_⟩
    · rw [← hcore.1]
      exact hlkp
    · obtain ⟨lim, hliml, hlimk, hlimo⟩ := hmem
      refine ⟨lim, ?_, hlimk, hlimo⟩
      rw [hsd]
      exact hliml

theorem placeLimitOrder_spec (ob : Orderbook) (order : Order) (ob1 : Orderbook)
    (order1 : Order) (ms : List Match)
    (h : ob.placeLimitOrder order = (ob1, order1, ms)) :
    order1.id = order.id ∧ order1.userID = order.userID ∧ order1.side = order.side
    ∧ order1.price = order.price ∧ order1.amount = order.amount
    ∧ order1.filledAmount = order.filledAmount + sumSizes ms
    ∧ (order.filledAmount ≤ order.amount → order1.filledAmount ≤ order.amount)
    ∧ (order1.isFilled = false →
        mapLookup ob1.orders order.id = some order1
        ∧ order1.limitTicks = some (PriceToTicks order.price ob.priceTick)
        ∧ ∃ lim ∈ (if order1.side = Side.bid then ob1.bids else ob1.asks),
            lim.priceTicks = PriceToTicks order.price ob.priceTick
            ∧ order1 ∈ lim.orders) := by
  unfold Orderbook.placeLimitOrder at h
  dsimp only at h
  by_cases hside : order.side = Side.bid
  · rw [if_pos hside] at h
    exact placeLimitOrder_side_spec ob order ob1 order1 ms ob.asks _ _
      (fun lims idx => { ob with asks := lims, orders := idx }) h
  · rw [if_neg hside] at h
    exact placeLimitOrder_side_spec ob order ob1 order1 ms ob.bids _ _
      (fun lims idx => { ob with bids := lims, orders := idx }) h

theorem placeLimitOrder_side_matches (ob : Orderbook) (order : Order) (ob1 : Orderbook)
    (order1 : Order) (ms : List Match) (lims0 : List Limit) (cross : Limit → Bool)
    (idxf : Match → Order)
    (mk2 : List Limit → List (Int × Order) → Orderbook)
    (h : (match walkFill order ob.priceTick cross lims0 with
      | (lims, o1, ms1, removed) =>
        let idx1 := ms1.foldl (fun acc mt => mapReplace acc (idxf mt)) ob.orders
        let idx2 := removed.foldl (fun acc o => mapReplace acc o) idx1
        let ob2 := mk2 lims idx2
        if o1.isFilled then (ob2, o1, ms1)
        else
          match ob2.addOrderToBook o1 (PriceToTicks order.price ob.priceTick) with
          | (ob3, order2) => (ob3, order2, ms1)) = (ob1, order1, ms))
    (h0 : 0 ≤ order.filledAmount)
    (hwf : ∀ lim ∈ lims0, ∀ o ∈ lim.orders, 0 ≤ o.filledAmount ∧ o.filledAmount < o.amount) :
    ∀ mt ∈ ms,
      (∃ lim ∈ lims0, cross lim = false ∧ mt.price = TicksToPrice lim.priceTicks ob.priceTick)
      ∧ 0 < mt.sizeFilled
      ∧ (order.side = Side.bid → mt.bid.userID = order.userID ∧ ¬ mt.ask.userID = order.userID)
      ∧ (¬ order.side = Side.bid →
          mt.ask.userID = order.userID ∧ ¬ mt.bid.userID = order.userID) := by
  rcases hw : walkFill order ob.priceTick cross lims0 with ⟨lims, o1, ms1, removed⟩
  rw [hw] at h
  dsimp only at h
  have hms : ms1 = ms := by
    split at h
    · simp only [Prod.mk.injEq] at h
      exact h.2.2
    · simp only [Prod.mk.injEq] at h
      exact h.2.2
  subst hms
  exact walkFill_matches _ _ _ _ _ _ _ _ hw h0 hwf

theorem placeLimitOrder_matches (ob : Orderbook) (order : Order) (ob1 : Orderbook)
    (order1 : Order) (ms : List Match)
    (h : ob.placeLimitOrder order = (ob1, order1, ms))
    (h0 : 0 ≤ order.filledAmount)
    (hwfb : ∀ lim ∈ ob.bids, ∀ o ∈ lim.orders, 0 ≤ o.filledAmount ∧ o.filledAmount < o.amount)
    (hwfa : ∀ lim ∈ ob.asks, ∀ o ∈ lim.orders, 0 ≤ o.filledAmount ∧ o.filledAmount < o.amount) :
    ∀ mt ∈ ms,
      0 < mt.sizeFilled
      ∧ (order.side = Side.bid →
          mt.bid.userID = order.userID ∧ ¬ mt.ask.userID = order.userID
          ∧ ∃ kl : Int, kl ≤ PriceToTicks order.price ob.priceTick
              ∧ mt.price = TicksToPrice kl ob.priceTick)
      ∧ (¬ order.side = Side.bid →
          mt.ask.userID = order.userID ∧ ¬ mt.bid.userID = order.userID
          ∧ ∃ kl : Int, PriceToTicks order.price ob.priceTick ≤ kl
              ∧ mt.price = TicksToPrice kl ob.priceTick) := by
  unfold Orderbook.placeLimitOrder at h
  dsimp only at h
  by_cases hside : order.side = Side.bid
  · rw [if_pos hside] at h
    have hm := placeLimitOrder_side_matches ob order ob1 order1 ms ob.asks _ _
      (fun lims idx => { ob with asks := lims, orders := idx }) h h0 hwfa
    intro mt hmt
    obtain ⟨⟨lim, hliml, hcr, hp⟩, hsz, hu1, hu2⟩ := hm mt hmt
    refine ⟨hsz, ?_, ?_⟩
    · intro _
      refine ⟨(hu1 hside).1, (hu1 hside).2, lim.priceTicks, ?_, hp⟩
      simpa using hcr
    · intro hc
      exact absurd hside hc
  · rw [if_neg hside] at h
    have hm := placeLimitOrder_side_matches ob order ob1 order1 ms ob.bids _ _
      (fun lims idx => { ob with bids := lims, orders := idx }) h h0 hwfb
    intro mt hmt
    obtain ⟨⟨lim, hliml, hcr, hp⟩, hsz, hu1, hu2⟩ := hm mt hmt
    refine ⟨hsz, ?_, ?_⟩
    · intro hc
      exact absurd hc hside
    · intro _
      refine ⟨(hu2 hside).1, (hu2 hside).2, lim.priceTicks, ?_, hp⟩
      simpa using hcr

/-! ## Engine-level lemmas -/

theorem NewOrder_ok (nid : Int) (u : String) (sd : Side) (p a : ℚ) (o : Order)
    (h : NewOrder nid u sd p a = Except.ok o) :
    o = ⟨nid, u, sd, .limit, p, a, 0, .opened, none⟩ ∧ 0 < p ∧ 0 < a ∧ ¬ u = "" := by
  unfold NewOrder at h
  split at h
  · cases h
  split at h
  · cases h
  split at h
  · cases h
  rename_i h1 h2 h3
  simp only [Except.ok.injEq] at h
  exact ⟨h.symm, by linarith [not_le.mp h2], by linarith [not_le.mp h3], h1⟩

theorem booksLookup_booksInsert_self (bs : List (String × Orderbook)) (k : String)
    (ob : Orderbook) : booksLookup (booksInsert bs k ob) k = some ob := by
  unfold booksInsert
  by_cases hs : (bs.find? (fun e => e.1 = k)).isSome
  · rw [if_pos hs]
    unfold booksLookup
    induction bs with
    | nil => simp [List.find?] at hs
    | cons e es ih =>
      by_cases he : e.1 = k
      · simp only [List.map_cons, if_pos he]
        rw [List.find?_cons_of_pos _ (by simp)]
        rfl
      · simp only [List.map_cons, if_neg he]
        rw [List.find?_cons_of_neg _ (by simpa using he)]
        apply ih
        rw [List.find?_cons_of_neg _ (by simpa using he)] at hs
        exact hs
  · rw [if_neg hs]
    unfold booksLookup
    rw [List.find?_cons_of_pos _ (by simp)]
    rfl

theorem placeOrder_ok_inv (st : EngState) (u : String) (pr : Pair) (sd : Side)
    (p a : ℚ) (st' : EngState) (o : Order) (ms : List Match)
    (h : placeOrder st u pr sd p a = (st', Except.ok (o, ms))) :
    ∃ (order : Order) (m1 m2 m3 : Manager) (ob1 : Orderbook),
      pr.isValid = true
      ∧ NewOrder st.nextId u sd (FloorToTick p priceTickC) (FloorToTick a amountTickC)
          = Except.ok order
      ∧ st.accounts.lock u (if sd = Side.bid then pr.quote else pr.base)
          (if sd = Side.bid then order.price * order.amount else order.amount) = (m1, none)
      ∧ ((booksLookup st.books pr.key).getD NewOrderbook).placeLimitOrder order
          = (ob1, o, ms)
      ∧ settleLoop m1 pr ms = (m2, none)
      ∧ refundBidDifference m2 pr u o ms = (m3, none)
      ∧ st' = ⟨booksInsert st.books pr.key ob1, m3, st.nextId + 1⟩ := by
  unfold placeOrder at h
  split at h
  · exact Except.noConfusion (congrArg Prod.snd h)
  rename_i hvalid
  have hv1 : IsValidTick (FloorToTick p priceTickC) priceTickC = true :=
    IsValidTick_FloorToTick _ _
  have hv2 : IsValidTick (FloorToTick a amountTickC) amountTickC = true :=
    IsValidTick_FloorToTick _ _
  dsimp only at h
  rw [hv1] at h
  rw [if_neg (by simp)] at h
  rw [hv2] at h
  rw [if_neg (by simp)] at h
  cases hno : NewOrder st.nextId u sd (FloorToTick p priceTickC) (FloorToTick a amountTickC) with
  | error e =>
    rw [hno] at h
    dsimp only at h
    exact Except.noConfusion (congrArg Prod.snd h)
  | ok order =>
    rw [hno] at h
    dsimp only at h
    refine ⟨order, ?_⟩
    rcases hlk : Manager.lock st.accounts u (if sd = Side.bid then pr.quote else pr.base)
        (if sd = Side.bid then order.price * order.amount else order.amount)
      with ⟨m1, e1⟩
    rw [hlk] at h
    cases e1 with
    | some e =>
      dsimp only at h
      exact Except.noConfusion (congrArg Prod.snd h)
    | none =>
      dsimp only at h
      rcases hset : settleLoop m1 pr
          (((booksLookup st.books pr.key).getD NewOrderbook).placeLimitOrder order).2.2
        with ⟨m2, e2⟩
      rw [hset] at h
      cases e2 with
      | some e =>
        dsimp only at h
        exact Except.noConfusion (congrArg Prod.snd h)
      | none =>
        dsimp only at h
        rcases href : refundBidDifference m2 pr u
            (((booksLookup st.books pr.key).getD NewOrderbook).placeLimitOrder order).2.1
            (((booksLookup st.books pr.key).getD NewOrderbook).placeLimitOrder order).2.2
          with ⟨m3, e3⟩
        rw [href] at h
        cases e3 with
        | some e =>
          dsimp only at h
          exact Except.noConfusion (congrArg Prod.snd h)
        | none =>
          dsimp only at h
          simp only [Prod.mk.injEq, Except.ok.injEq] at h
          obtain ⟨h1, h2, h3⟩ := h
          refine ⟨m1, m2, m3, (((booksLookup st.books pr.key).getD NewOrderbook).placeLimitOrder order).1,
            by simpa using hvalid, rfl, rfl, ?_, ?_, ?_, ?_⟩
          · rw [← h2, ← h3]
          · rw [← h3]
            exact hset
          · rw [← h2, ← h3]
            exact href
          · rw [← h1]

/-! ## Claim C5 — crossing guard and resting registration -/

/-- The guarantees of the intended best-first sweep: trades only at
non-crossing level prices (bounded by the tick-aligned limit price) and
registration of an incompletely filled remainder in the `order_id` index
with its level back-reference. -/
theorem placeLimitOrder_guarantees (ob : Orderbook) (order : Order) (ob1 : Orderbook)
    (order1 : Order) (ms : List Match)
    (h : ob.placeLimitOrder order = (ob1, order1, ms))
    (htick : 0 ≤ ob.priceTick)
    (h0 : 0 ≤ order.filledAmount)
    (hwfb : ∀ lim ∈ ob.bids, ∀ o ∈ lim.orders, 0 ≤ o.filledAmount ∧ o.filledAmount < o.amount)
    (hwfa : ∀ lim ∈ ob.asks, ∀ o ∈ lim.orders, 0 ≤ o.filledAmount ∧ o.filledAmount < o.amount) :
    (∀ mt ∈ ms,
      (order.side = Side.bid →
        mt.price ≤ TicksToPrice (PriceToTicks order.price ob.priceTick) ob.priceTick)
      ∧ (¬ order.side = Side.bid →
        TicksToPrice (PriceToTicks order.price ob.priceTick) ob.priceTick ≤ mt.price))
    ∧ (order1.isFilled = false →
        mapLookup ob1.orders order.id = some order1
        ∧ order1.limitTicks = some (PriceToTicks order.price ob.priceTick)
        ∧ ∃ lim ∈ (if order1.side = Side.bid then ob1.bids else ob1.asks),
            lim.priceTicks = PriceToTicks order.price ob.priceTick
            ∧ order1 ∈ lim.orders) := by
  constructor
  · intro mt hmt
    have hm := placeLimitOrder_matches ob order ob1 order1 ms h h0 hwfb hwfa mt hmt
    constructor
    · intro hside
      obtain ⟨-, -, kl, hkl, hp⟩ := hm.2.1 hside
      rw [hp]
      unfold TicksToPrice
      have : (kl : ℚ) ≤ (PriceToTicks order.price ob.priceTick : ℚ) := by
        exact_mod_cast hkl
      exact mul_le_mul_of_nonneg_right this htick
    · intro hside
      obtain ⟨-, -, kl, hkl, hp⟩ := hm.2.2 hside
      rw [hp]
      unfold TicksToPrice
      have : (PriceToTicks order.price ob.priceTick : ℚ) ≤ (kl : ℚ) := by
        exact_mod_cast hkl
      exact mul_le_mul_of_nonneg_right this htick
  · exact (placeLimitOrder_spec ob order ob1 order1 ms h).2.2.2.2.2.2.2

theorem deleteOrder_priceTicks (lm : Limit) (o : Order) :
    (lm.deleteOrder o).priceTicks = lm.priceTicks := by
  unfold Limit.deleteOrder
  split <;> rfl

theorem foldl_deleteOrder_priceTicks (ds : List Order) :
    ∀ lm : Limit, (ds.foldl (fun lm o => lm.deleteOrder o) lm).priceTicks
      = lm.priceTicks := by
  induction ds with
  | nil => intro lm; rfl
  | cons d ds ih =>
    intro lm
    rw [List.foldl_cons, ih, deleteOrder_priceTicks]

theorem fill_priceTicks (l : Limit) (incoming inc2 : Order) (t : ℚ) (lim2 : Limit)
    (ms : List Match) (removed : List Order)
    (h : l.fill incoming t = (inc2, lim2, ms, removed)) :
    lim2.priceTicks = l.priceTicks := by
  unfold Limit.fill at h
  dsimp only at h
  rcases hfl : fillLoop incoming (TicksToPrice l.priceTicks t) l.orders
    with ⟨i2, processed, ms2, dels⟩
  rw [hfl] at h
  simp only [Prod.mk.injEq] at h
  obtain ⟨-, h2, -, -⟩ := h
  rw [← h2, foldl_deleteOrder_priceTicks]

theorem walkFill_len_le (t : ℚ) (cross : Limit → Bool) :
    ∀ (lims : List Limit) (inc : Order),
      ((walkFill inc t cross lims).1).length ≤ lims.length := by
  intro lims
  induction lims with
  | nil =>
    intro inc
    simp [walkFill]
  | cons lim rest ih =>
    intro inc
    unfold walkFill
    split
    · simp
    split
    · simp
    · rcases hfill : lim.fill inc t with ⟨inc1, lim1, ms1, rem1⟩
      dsimp only
      rcases hrec : walkFill inc1 t cross rest with ⟨r2, i2, ms2, rm2⟩
      dsimp only
      have := ih inc1
      rw [hrec] at this
      dsimp only at this
      split
      · simp only [List.length_cons]
        omega
      · simp only [List.length_cons]
        omega

theorem get_append_cons (pre : List Limit) (x : Limit) (l : List Limit) :
    (pre ++ x :: l).get? pre.length = some x := by
  induction pre with
  | nil => rfl
  | cons y ys ih => simpa using ih

theorem replaceLimit_append (a b : List Limit) (k : Int) (nl : Limit) :
    replaceLimit (a ++ b) k nl = replaceLimit a k nl ++ replaceLimit b k nl := by
  simp [replaceLimit]

theorem replaceLimit_no_hit (ls : List Limit) (k : Int) (nl : Limit)
    (h : ∀ l ∈ ls, ¬ l.priceTicks = k) : replaceLimit ls k nl = ls := by
  induction ls with
  | nil => rfl
  | cons x xs ih =>
    unfold replaceLimit
    simp only [List.map_cons]
    rw [if_neg (h x (List.mem_cons_self x xs))]
    have h2 := ih (fun l hl => h l (List.mem_cons_of_mem x hl))
    unfold replaceLimit at h2
    rw [h2]

/-- On a sweep during which no visited level empties (the intended walk
drops no level), the slice-header iteration of the Go loop coincides with
the intended best-first sweep: same final levels, active length, incoming
order, matches and removals.  `pre` is the already-visited prefix of the
backing array; ticks must be pairwise distinct (pointer aliasing is
modelled by ticks). -/
theorem walkFillGo_eq_walkFill (t : ℚ) (cross : Limit → Bool) :
    ∀ (post pre : List Limit) (fuel i curLen : Nat) (inc : Order),
      fuel = post.length → i = pre.length → curLen = pre.length + post.length →
      (((pre ++ post).map (fun l => l.priceTicks)).Nodup) →
      ((walkFill inc t cross post).1).length = post.length →
      walkFillGo t cross fuel i curLen (pre ++ post) inc
        = (pre ++ (walkFill inc t cross post).1, curLen,
           (walkFill inc t cross post).2.1,
           (walkFill inc t cross post).2.2.1,
           (walkFill inc t cross post).2.2.2) := by
  intro post
  induction post with
  | nil =>
    intro pre fuel i curLen inc hf hi hc hnd hlen
    simp only [List.length_nil] at hf
    subst hf
    simp [walkFillGo, walkFill]
  | cons lim rest ih =>
    intro pre fuel i curLen inc hf hi hc hnd hlen
    subst hf
    subst hi
    subst hc
    have hnd' := hnd
    rw [List.map_append, List.map_cons, List.nodup_append] at hnd'
    obtain ⟨-, hnd2, hdisj⟩ := hnd'
    have hnotr : lim.priceTicks ∉ rest.map (fun l => l.priceTicks) :=
      (List.nodup_cons.mp hnd2).1
    have hnotp : lim.priceTicks ∉ pre.map (fun l => l.priceTicks) := fun hmem =>
      hdisj hmem (List.mem_cons_self _ _)
    have hfr1 : ∀ l ∈ pre, ¬ l.priceTicks = lim.priceTicks := fun l hl he =>
      hnotp (he ▸ List.mem_map_of_mem _ hl)
    have hfr2 : ∀ l ∈ rest, ¬ l.priceTicks = lim.priceTicks := fun l hl he =>
      hnotr (he ▸ List.mem_map_of_mem _ hl)
    rcases hW : walkFill inc t cross (lim :: rest) with ⟨W1, W2, W3, W4⟩
    rw [hW] at hlen
    dsimp only
    dsimp only at hlen
    simp only [List.length_cons] at hlen ⊢
    unfold walkFillGo
    rw [get_append_cons]
    dsimp only
    unfold walkFill at hW
    split at hW
    case isTrue hcr =>
      simp only [Prod.mk.injEq] at hW
      obtain ⟨h1, h2, h3, h4⟩ := hW
      rw [if_pos hcr, ← h1, ← h2, ← h3, ← h4]
    case isFalse hcr =>
      split at hW
      case isTrue hfil =>
        simp only [Prod.mk.injEq] at hW
        obtain ⟨h1, h2, h3, h4⟩ := hW
        rw [if_neg hcr, if_pos hfil, ← h1, ← h2, ← h3, ← h4]
      case isFalse hfil =>
        rw [if_neg hcr, if_neg hfil]
        rcases hfill : lim.fill inc t with ⟨inc1, lim1, ms1, rem1⟩
        rw [hfill] at hW
        dsimp only at hW
        rcases hrec : walkFill inc1 t cross rest with ⟨r2, i2, ms2, rm2⟩
        rw [hrec] at hW
        dsimp only
        have hpt : lim1.priceTicks = lim.priceTicks :=
          fill_priceTicks _ _ _ _ _ _ _ hfill
        have hle := walkFill_len_le t cross rest inc1
        rw [hrec] at hle
        dsimp only at hle
        by_cases hemp : lim1.orders.isEmpty = true
        · rw [if_pos hemp] at hW
          exfalso
          simp only [Prod.mk.injEq] at hW
          obtain ⟨h1, -, -, -⟩ := hW
          rw [h1] at hle
          omega
        · rw [if_neg hemp] at hW
          simp only [Prod.mk.injEq] at hW
          obtain ⟨h1, h2, h3, h4⟩ := hW
          rw [if_neg hemp]
          have harr1 : replaceLimit (pre ++ lim :: rest) lim.priceTicks lim1
              = (pre ++ [lim1]) ++ rest := by
            rw [replaceLimit_append, replaceLimit_no_hit pre _ _ hfr1]
            have h5 : replaceLimit (lim :: rest) lim.priceTicks lim1
                = lim1 :: rest := by
              have h6 := replaceLimit_no_hit rest lim.priceTicks lim1 hfr2
              unfold replaceLimit at h6 ⊢
              simp only [List.map_cons, h6]
              simp
            rw [h5]
            simp
          rw [harr1]
          have hlen' : ((walkFill inc1 t cross rest).1).length = rest.length := by
            rw [hrec]
            dsimp only
            rw [← h1] at hlen
            simp only [List.length_cons] at hlen
            omega
          have hnd'' : (((pre ++ [lim1]) ++ rest).map
              (fun l => l.priceTicks)).Nodup := by
            have he : ((pre ++ [lim1]) ++ rest).map (fun l => l.priceTicks)
                = (pre ++ lim :: rest).map (fun l => l.priceTicks) := by
              simp [hpt]
            rw [he]
            exact hnd
          have hih := ih (pre ++ [lim1]) rest.length (pre.length + 1)
            (pre.length + (rest.length + 1)) inc1 rfl (by simp)
            (by simp only [List.length_append, List.length_cons, List.length_nil]; omega)
            hnd'' hlen'
          rw [hih]
          dsimp only
          rw [hrec]
          dsimp only
          rw [← h1, ← h2, ← h3, ← h4]
          simp

/-- On a placement during which no opposite-side level empties, the Go
slice-header walk and the intended best-first sweep produce the same
book, order and matches. -/
theorem placeLimitOrderGo_eq (ob : Orderbook) (order : Order)
    (hnda : (ob.asks.map (fun l => l.priceTicks)).Nodup)
    (hndb : (ob.bids.map (fun l => l.priceTicks)).Nodup)
    (hncb : order.side = Side.bid →
      ((walkFill order ob.priceTick
          (fun l => PriceToTicks order.price ob.priceTick < l.priceTicks) ob.asks).1).length
        = ob.asks.length)
    (hnca : ¬ order.side = Side.bid →
      ((walkFill order ob.priceTick
          (fun l => l.priceTicks < PriceToTicks order.price ob.priceTick) ob.bids).1).length
        = ob.bids.length) :
    ob.placeLimitOrderGo order = ob.placeLimitOrder order := by
  unfold Orderbook.placeLimitOrderGo Orderbook.placeLimitOrder
  dsimp only
  by_cases hsd : order.side = Side.bid
  · rw [if_pos hsd, if_pos hsd]
    have heq := walkFillGo_eq_walkFill ob.priceTick
      (fun l => PriceToTicks order.price ob.priceTick < l.priceTicks)
      ob.asks [] ob.asks.length 0 ob.asks.length order rfl rfl (by simp)
      (by simpa using hnda) (hncb hsd)
    rw [List.nil_append] at heq
    rw [heq]
    dsimp only
    rw [List.nil_append]
    have htake : ((walkFill order ob.priceTick
        (fun l => PriceToTicks order.price ob.priceTick < l.priceTicks) ob.asks).1).take
          ob.asks.length
        = (walkFill order ob.priceTick
            (fun l => PriceToTicks order.price ob.priceTick < l.priceTicks) ob.asks).1 := by
      rw [← hncb hsd]
      exact List.take_length _
    rw [htake]
  · rw [if_neg hsd, if_neg hsd]
    have heq := walkFillGo_eq_walkFill ob.priceTick
      (fun l => l.priceTicks < PriceToTicks order.price ob.priceTick)
      ob.bids [] ob.bids.length 0 ob.bids.length order rfl rfl (by simp)
      (by simpa using hndb) (hnca hsd)
    rw [List.nil_append] at heq
    rw [heq]
    dsimp only
    rw [List.nil_append]
    have htake : ((walkFill order ob.priceTick
        (fun l => l.priceTicks < PriceToTicks order.price ob.priceTick) ob.bids).1).take
          ob.bids.length
        = (walkFill order ob.priceTick
            (fun l => l.priceTicks < PriceToTicks order.price ob.priceTick) ob.bids).1 := by
      rw [← hnca hsd]
      exact List.take_length _
    rw [htake]

set_option maxRecDepth 2000 in
/-- C5 counterexample: the Go walk is not the spec's best-first sweep.
Three one-order ask levels at 49000 (resting order id 1), 49500 (id 2)
and 50000 (id 3) are hit by a bid of 3 BTC at 50000.  The faithful
slice-header walk trades against id 1 and then — because clearing the
emptied 49000 level shifts the backing array under the captured range
header — skips the better 49500 level and trades against id 3 at 50000,
leaving the bid unfilled while the 49500 ask (id 2) still rests; the
spec's sweep would consume all three levels in price order and fill the
bid. -/
theorem C5_counterexample :
    ((c5gob.placeLimitOrderGo c5ginc).2.2.map (fun mt => mt.ask.id) = [1, 3])
    ∧ (∃ lim ∈ (c5gob.placeLimitOrderGo c5ginc).1.asks,
        lim.priceTicks = 4950000 ∧ ¬ lim.orders = [])
    ∧ (c5gob.placeLimitOrderGo c5ginc).2.1.isFilled = false
    ∧ ((c5gob.placeLimitOrder c5ginc).2.2.map (fun mt => mt.ask.id) = [1, 2, 3])
    ∧ (c5gob.placeLimitOrder c5ginc).2.1.isFilled = true := by
  refine ⟨?_, ?_, ?_, ?_, ?_⟩ <;> with_unfolding_all decide

/-- C5 (amended): the walk Go executes iterates the slice header captured
at loop entry while `clearLimit` shifts the array in place, so it is the
spec's best-first stop-at-first-crossing sweep only as long as no visited
level empties; on such placements (and with the book's level ticks
pairwise distinct) the faithful walk coincides with the intended sweep,
and then every trade executes at a non-crossing level price bounded by
the tick-aligned limit price, and an incompletely filled order is
registered in `order_id` with its back-reference at a level of its own
side carrying the order's computed ticks. -/
theorem C5_go_walk_crossing_registration (ob : Orderbook) (order : Order)
    (ob1 : Orderbook) (order1 : Order) (ms : List Match)
    (h : ob.placeLimitOrderGo order = (ob1, order1, ms))
    (hnda : (ob.asks.map (fun l => l.priceTicks)).Nodup)
    (hndb : (ob.bids.map (fun l => l.priceTicks)).Nodup)
    (hncb : order.side = Side.bid →
      ((walkFill order ob.priceTick
          (fun l => PriceToTicks order.price ob.priceTick < l.priceTicks) ob.asks).1).length
        = ob.asks.length)
    (hnca : ¬ order.side = Side.bid →
      ((walkFill order ob.priceTick
          (fun l => l.priceTicks < PriceToTicks order.price ob.priceTick) ob.bids).1).length
        = ob.bids.length)
    (htick : 0 ≤ ob.priceTick)
    (h0 : 0 ≤ order.filledAmount)
    (hwfb : ∀ lim ∈ ob.bids, ∀ o ∈ lim.orders, 0 ≤ o.filledAmount ∧ o.filledAmount < o.amount)
    (hwfa : ∀ lim ∈ ob.asks, ∀ o ∈ lim.orders, 0 ≤ o.filledAmount ∧ o.filledAmount < o.amount) :
    ob.placeLimitOrderGo order = ob.placeLimitOrder order
    ∧ (∀ mt ∈ ms,
      (order.side = Side.bid →
        mt.price ≤ TicksToPrice (PriceToTicks order.price ob.priceTick) ob.priceTick)
      ∧ (¬ order.side = Side.bid →
        TicksToPrice (PriceToTicks order.price ob.priceTick) ob.priceTick ≤ mt.price))
    ∧ (order1.isFilled = false →
        mapLookup ob1.orders order.id = some order1
        ∧ order1.limitTicks = some (PriceToTicks order.price ob.priceTick)
        ∧ ∃ lim ∈ (if order1.side = Side.bid then ob1.bids else ob1.asks),
            lim.priceTicks = PriceToTicks order.price ob.priceTick
            ∧ order1 ∈ lim.orders) := by
  have heq := placeLimitOrderGo_eq ob order hnda hndb hncb hnca
  have h' : ob.placeLimitOrder order = (ob1, order1, ms) := by
    rw [← heq]
    exact h
  exact ⟨heq, (placeLimitOrder_guarantees ob order ob1 order1 ms h' htick h0 hwfb hwfa).1,
    (placeLimitOrder_guarantees ob order ob1 order1 ms h' htick h0 hwfb hwfa).2⟩

/-- C5 witness: a bid placed (via the faithful Go walk) on a book with
one resting non-crossing ask — no level empties, the Go walk equals the
intended sweep, the bid rests unfilled and is registered at its own tick
level. -/
theorem C5_witness :
    c5ob.placeLimitOrderGo c5inc = c5ob.placeLimitOrder c5inc
    ∧ (∀ mt ∈ (c5ob.placeLimitOrderGo c5inc).2.2,
      (c5inc.side = Side.bid →
        mt.price ≤ TicksToPrice (PriceToTicks c5inc.price c5ob.priceTick) c5ob.priceTick)
      ∧ (¬ c5inc.side = Side.bid →
        TicksToPrice (PriceToTicks c5inc.price c5ob.priceTick) c5ob.priceTick ≤ mt.price))
    ∧ (((c5ob.placeLimitOrderGo c5inc).2.1.isFilled = false) →
        mapLookup (c5ob.placeLimitOrderGo c5inc).1.orders c5inc.id
            = some (c5ob.placeLimitOrderGo c5inc).2.1
        ∧ (c5ob.placeLimitOrderGo c5inc).2.1.limitTicks
            = some (PriceToTicks c5inc.price c5ob.priceTick)
        ∧ ∃ lim ∈ (if (c5ob.placeLimitOrderGo c5inc).2.1.side = Side.bid
              then (c5ob.placeLimitOrderGo c5inc).1.bids
              else (c5ob.placeLimitOrderGo c5inc).1.asks),
            lim.priceTicks = PriceToTicks c5inc.price c5ob.priceTick
            ∧ (c5ob.placeLimitOrderGo c5inc).2.1 ∈ lim.orders) :=
  C5_go_walk_crossing_registration c5ob c5inc _ _ _ rfl (by decide) (by decide)
    (fun _ => by with_unfolding_all rfl) (fun hc => absurd (by decide) hc)
    (by norm_num [c5ob]) (by decide) (by decide) (by decide)

/-! ## Claim C7 — cancel postconditions and second-cancel error -/

theorem mapLookup_mapErase_self (m : List (Int × Order)) (i : Int) :
    mapLookup (mapErase m i) i = none := by
  unfold mapLookup mapErase
  induction m with
  | nil => simp
  | cons e es ih =>
    by_cases he : e.1 = i
    · rw [List.filter_cons, if_neg (by simp [he])]
      exact ih
    · rw [List.filter_cons, if_pos (by simp [he])]
      rw [List.find?_cons_of_neg _ (by simpa using he)]
      exact ih

/-- C7: after a successful cancel of a resting order, that order is gone
from the `order_id` index, the returned order's state is `cancelled` with
`filled_amount` unchanged from the stored order, and a second cancel of
the same id returns `OrderNotFound` without changing the book. -/
theorem C7_cancel_postconditions (ob : Orderbook) (orderID : Int) (ob1 : Orderbook)
    (o o0 : Order)
    (hlk : mapLookup ob.orders orderID = some o0)
    (h : ob.cancelOrder orderID = (ob1, Except.ok o)) :
    mapLookup ob1.orders orderID = none
    ∧ o.state = OState.cancelled
    ∧ o.filledAmount = o0.filledAmount
    ∧ ob1.cancelOrder orderID = (ob1, Except.error Err.orderNotFound) := by
  unfold Orderbook.cancelOrder at h
  rw [hlk] at h
  dsimp only at h
  simp only [Prod.mk.injEq, Except.ok.injEq] at h
  obtain ⟨h1, h2⟩ := h
  have hnone : mapLookup ob1.orders orderID = none := by
    rw [← h1]
    exact mapLookup_mapErase_self _ orderID
  refine ⟨hnone, by rw [← h2], by rw [← h2], ?_⟩
  unfold Orderbook.cancelOrder
  rw [hnone]

/-- C7 witness: cancelling the single resting bid of a one-order book,
then cancelling it again. -/
theorem C7_witness :
    mapLookup (c7ob.cancelOrder 1).1.orders 1 = none
    ∧ ((c7ob.cancelOrder 1).2.toOption.getD dfltOrder).state = OState.cancelled
    ∧ ((c7ob.cancelOrder 1).2.toOption.getD dfltOrder).filledAmount = c7o.filledAmount
    ∧ (c7ob.cancelOrder 1).1.cancelOrder 1
        = ((c7ob.cancelOrder 1).1, Except.error Err.orderNotFound) :=
  C7_cancel_postconditions c7ob 1 (c7ob.cancelOrder 1).1
    ((c7ob.cancelOrder 1).2.toOption.getD dfltOrder) c7o rfl rfl

/-! ## Claim C4 — fill routine: self-trade skip and trade well-formedness -/

/-- C4: in the level fill routine, resting orders sharing the incoming
order's user id are skipped (the same-user sublist of the level is
unchanged, values included); every emitted trade has positive price
(the level's price), positive size, size bounded by both orders' amounts,
distinct buyer and seller; and trades are emitted in FIFO order of the
resting orders consumed.  Hypotheses: positive tick and level ticks,
well-formed resting orders (`0 ≤ filled < amount`), distinct resting ids,
non-negative incoming fill. -/
theorem C4_fill_selftrade_and_trades
    (l : Limit) (incoming inc2 : Order) (tick : ℚ) (lim2 : Limit)
    (ms : List Match) (removed : List Order)
    (hfill : l.fill incoming tick = (inc2, lim2, ms, removed))
    (htick : 0 < tick) (hticks : 0 < l.priceTicks)
    (hinc : 0 ≤ incoming.filledAmount)
    (hwf : ∀ o ∈ l.orders, 0 ≤ o.filledAmount ∧ o.filledAmount < o.amount)
    (hnd : (l.orders.map (fun o => o.id)).Nodup) :
    (lim2.orders.filter (fun o => o.userID = incoming.userID)
       = l.orders.filter (fun o => o.userID = incoming.userID))
    ∧ (∀ mt ∈ ms,
        0 < mt.price ∧ 0 < mt.sizeFilled
        ∧ mt.sizeFilled ≤ mt.bid.amount ∧ mt.sizeFilled ≤ mt.ask.amount
        ∧ ¬ mt.bid.userID = mt.ask.userID
        ∧ mt.price = TicksToPrice l.priceTicks tick)
    ∧ (ms.map (fun mt => (if incoming.side = Side.bid then mt.ask else mt.bid).id)).Sublist
        (l.orders.map (fun o => o.id)) := by
  unfold Limit.fill at hfill
  dsimp only at hfill
  rcases hfl : fillLoop incoming (TicksToPrice l.priceTicks tick) l.orders
    with ⟨i2, processed, ms2, dels⟩
  rw [hfl] at hfill
  simp only [Prod.mk.injEq] at hfill
  obtain ⟨hi, hl, hm, hr⟩ := hfill
  subst hm
  have hids : processed.map (fun o => o.id) = l.orders.map (fun o => o.id) :=
    (fillLoop_core _ _ _ _ _ _ _ hfl).2.2.2.2.2.2.2.2
  have hndp : (processed.map (fun o => o.id)).Nodup := by rw [hids]; exact hnd
  have hprice : 0 < TicksToPrice l.priceTicks tick := by
    unfold TicksToPrice
    have : (0 : ℚ) < (l.priceTicks : ℚ) := by exact_mod_cast hticks
    positivity
  refine ⟨?_, ?_, ?_⟩
  · rw [← hl]
    have hHyp : ∀ d ∈ dels, ∀ y ∈ processed, y.id = d.id → ¬ y.userID = incoming.userID := by
      intro d hd y hy hyid
      obtain ⟨hdm, hdu⟩ := fillLoop_dels _ _ _ _ _ _ _ hfl d hd
      have : y = d := List.inj_on_of_nodup_map hndp hy hdm hyid
      rw [this]
      exact hdu
    have hfold := foldl_deleteOrder_filter incoming.userID dels
      ⟨l.priceTicks, processed, l.totalVolume - sumSizes ms2⟩ (by simpa using hHyp)
    simp only at hfold
    rw [hfold]
    exact fillLoop_filter _ incoming.userID _ _ _ _ _ _ hfl rfl
  · intro mt hmt
    have hres := fillLoop_matches _ _ _ _ _ _ _ hfl hinc hwf mt hmt
    exact ⟨hres.2.2.2.2.1 ▸ hprice, hres.1, hres.2.1, hres.2.2.1, hres.2.2.2.1,
      hres.2.2.2.2.1⟩
  · exact fillLoop_fifo _ _ _ _ _ _ _ hfl

/-- C4 witness: a level with resting asks of users 1 and 3, hit by a bid
of user 1 — the same-user ask is skipped, the user-3 ask trades. -/
theorem C4_witness :
    ((c4lim.fill c4inc (1 / 100)).2.1.orders.filter (fun o => o.userID = c4inc.userID)
       = c4lim.orders.filter (fun o => o.userID = c4inc.userID))
    ∧ (∀ mt ∈ (c4lim.fill c4inc (1 / 100)).2.2.1,
        0 < mt.price ∧ 0 < mt.sizeFilled
        ∧ mt.sizeFilled ≤ mt.bid.amount ∧ mt.sizeFilled ≤ mt.ask.amount
        ∧ ¬ mt.bid.userID = mt.ask.userID
        ∧ mt.price = TicksToPrice c4lim.priceTicks (1 / 100))
    ∧ (((c4lim.fill c4inc (1 / 100)).2.2.1.map
          (fun mt => (if c4inc.side = Side.bid then mt.ask else mt.bid).id)).Sublist
        (c4lim.orders.map (fun o => o.id))) :=
  C4_fill_selftrade_and_trades c4lim c4inc _ (1 / 100) _ _ _ rfl
    (by norm_num) (by decide) (by decide) (by decide) (by decide)

/-- C9 witness: the amended round trip at `p = 3`, `t = 1/2`. -/
theorem C9_witness :
    (0 : ℚ) ≤ 3 ∧ (0 : ℚ) < 1 / 2 ∧ Int.fract ((3 : ℚ) / (1 / 2)) < 1 / 2
    ∧ TicksToPrice (PriceToTicks 3 (1 / 2)) (1 / 2) = FloorToTick 3 (1 / 2) :=
  ⟨by norm_num, by norm_num,
   by
     have : ((3 : ℚ) / (1 / 2)) = 6 := by norm_num
     rw [this]
     norm_num [Int.fract],
   C9_amended_round_trip 3 (1 / 2) (by norm_num) (by norm_num)
     (by
       have : ((3 : ℚ) / (1 / 2)) = 6 := by norm_num
       rw [this]
       norm_num [Int.fract])⟩

/-! ## Claim C3 — tick alignment: floor first, then a vacuous check -/

theorem validateInputs_err (u a : String) (x : ℚ) (e : Err)
    (h : validateInputs u a x = some e) :
    e = Err.invalidUserID ∨ e = Err.invalidAsset ∨ e = Err.invalidAmount := by
  unfold validateInputs at h
  split at h
  · exact Or.inl (Option.some.inj h).symm
  · split at h
    · exact Or.inr (Or.inl (Option.some.inj h).symm)
    · split at h
      · exact Or.inr (Or.inr (Option.some.inj h).symm)
      · cases h

theorem lock_err_kind (m : Manager) (u a : String) (x : ℚ) (m1 : Manager) (e : Err)
    (h : m.lock u a x = (m1, some e)) :
    e = Err.invalidUserID ∨ e = Err.invalidAsset ∨ e = Err.invalidAmount
      ∨ e = Err.insufficientBalance := by
  unfold Manager.lock at h
  cases hv : validateInputs u a x with
  | some e0 =>
    rw [hv] at h
    dsimp only at h
    have he := Option.some.inj (congrArg Prod.snd h)
    rcases validateInputs_err u a x e0 hv with h1 | h1 | h1 <;> rw [← he, h1] <;> simp
  | none =>
    rw [hv] at h
    dsimp only at h
    split at h
    · have he := Option.some.inj (congrArg Prod.snd h)
      rw [← he]
      simp
    · exact Option.noConfusion (congrArg Prod.snd h)

theorem NewOrder_err (nid : Int) (u : String) (sd : Side) (p a : ℚ) (e : Err)
    (h : NewOrder nid u sd p a = Except.error e) :
    e = Err.invalidUserID ∨ e = Err.invalidPrice ∨ e = Err.invalidAmount := by
  unfold NewOrder at h
  split at h
  · exact Or.inl (Except.error.inj h).symm
  · split at h
    · exact Or.inr (Or.inl (Except.error.inj h).symm)
    · split at h
      · exact Or.inr (Or.inr (Except.error.inj h).symm)
      · cases h

theorem placeOrder_err_kind (st : EngState) (u : String) (pr : Pair) (sd : Side)
    (p a : ℚ) (st1 : EngState) (e : Err)
    (h : placeOrder st u pr sd p a = (st1, Except.error e)) :
    ¬ e = Err.invalidPriceTick ∧ ¬ e = Err.invalidAmountTick := by
  unfold placeOrder at h
  split at h
  · have he := Except.error.inj (congrArg Prod.snd h)
    subst he
    exact ⟨fun hc => Err.noConfusion hc, fun hc => Err.noConfusion hc⟩
  · dsimp only at h
    rw [IsValidTick_FloorToTick] at h
    rw [if_neg (by simp)] at h
    rw [IsValidTick_FloorToTick] at h
    rw [if_neg (by simp)] at h
    cases hno : NewOrder st.nextId u sd (FloorToTick p priceTickC)
        (FloorToTick a amountTickC) with
    | error e0 =>
      rw [hno] at h
      dsimp only at h
      have he := Except.error.inj (congrArg Prod.snd h)
      subst he
      rcases NewOrder_err _ _ _ _ _ _ hno with h1 | h1 | h1 <;>
        (subst h1; exact ⟨fun hc => Err.noConfusion hc, fun hc => Err.noConfusion hc⟩)
    | ok order =>
      rw [hno] at h
      dsimp only at h
      rcases hlk : Manager.lock st.accounts u (if sd = Side.bid then pr.quote else pr.base)
          (if sd = Side.bid then order.price * order.amount else order.amount)
        with ⟨m1, e1⟩
      rw [hlk] at h
      cases e1 with
      | some e0 =>
        dsimp only at h
        have he := Except.error.inj (congrArg Prod.snd h)
        subst he
        rcases lock_err_kind _ _ _ _ _ _ hlk with h1 | h1 | h1 | h1 <;>
          (subst h1; exact ⟨fun hc => Err.noConfusion hc, fun hc => Err.noConfusion hc⟩)
      | none =>
        dsimp only at h
        rcases hset : settleLoop m1 pr
            (((booksLookup st.books pr.key).getD NewOrderbook).placeLimitOrder order).2.2
          with ⟨m2, e2⟩
        rw [hset] at h
        cases e2 with
        | some e0 =>
          dsimp only at h
          have he := Except.error.inj (congrArg Prod.snd h)
          subst he
          exact ⟨fun hc => Err.noConfusion hc, fun hc => Err.noConfusion hc⟩
        | none =>
          dsimp only at h
          rcases href : refundBidDifference m2 pr u
              (((booksLookup st.books pr.key).getD NewOrderbook).placeLimitOrder order).2.1
              (((booksLookup st.books pr.key).getD NewOrderbook).placeLimitOrder order).2.2
            with ⟨m3, e3⟩
          rw [href] at h
          cases e3 with
          | some e0 =>
            dsimp only at h
            have he := Except.error.inj (congrArg Prod.snd h)
            subst he
            exact ⟨fun hc => Err.noConfusion hc, fun hc => Err.noConfusion hc⟩
          | none =>
            dsimp only at h
            exact Except.noConfusion (congrArg Prod.snd h)

/-- C3 counterexample: `50000.005` is not on the `0.01` price grid (its own
tick check fails), yet the placement does not return `InvalidPriceTick`: it
succeeds, with the price silently floored to `50000`. -/
theorem C3_counterexample :
    IsValidTick (50000 + 5 / 1000 : ℚ) priceTickC = false
    ∧ (placeOrder stA "1" prBB Side.bid (50000 + 5 / 1000) 1).2
        = Except.ok (⟨1, "1", Side.bid, OType.limit, 50000, 1, 0, OState.opened,
            some 5000000⟩, []) := by
  constructor
  · with_unfolding_all rfl
  · with_unfolding_all rfl

/-- C3 (amended): the engine floors price and amount to the grid first and
applies the tick-validity check to the already-floored values, so the check
always passes: a placement never fails with `InvalidPriceTick` or
`InvalidAmountTick`, and a successful placement silently carries the floored
price and amount. -/
theorem C3_floor_then_vacuous_check (st : EngState) (u : String) (pr : Pair)
    (sd : Side) (p a : ℚ) :
    IsValidTick (FloorToTick p priceTickC) priceTickC = true
    ∧ IsValidTick (FloorToTick a amountTickC) amountTickC = true
    ∧ ¬ (placeOrder st u pr sd p a).2 = Except.error Err.invalidPriceTick
    ∧ ¬ (placeOrder st u pr sd p a).2 = Except.error Err.invalidAmountTick
    ∧ ∀ (st' : EngState) (o : Order) (ms : List Match),
        placeOrder st u pr sd p a = (st', Except.ok (o, ms)) →
        o.price = FloorToTick p priceTickC ∧ o.amount = FloorToTick a amountTickC := by
  refine ⟨IsValidTick_FloorToTick _ _, IsValidTick_FloorToTick _ _, ?_, ?_, ?_⟩
  · intro hc
    exact (placeOrder_err_kind st u pr sd p a (placeOrder st u pr sd p a).1 _
      (Prod.ext_iff.mpr ⟨rfl, hc⟩)).1 rfl
  · intro hc
    exact (placeOrder_err_kind st u pr sd p a (placeOrder st u pr sd p a).1 _
      (Prod.ext_iff.mpr ⟨rfl, hc⟩)).2 rfl
  · intro st' o ms h
    obtain ⟨order, m1, m2, m3, ob1, hv, hno, hlk, hpl, hset, href, hst⟩ :=
      placeOrder_ok_inv st u pr sd p a st' o ms h
    obtain ⟨horder, hp, ha, hu⟩ := NewOrder_ok _ _ _ _ _ _ hno
    have hspec := placeLimitOrder_spec _ _ _ _ _ hpl
    constructor
    · rw [hspec.2.2.2.1, horder]
    · rw [hspec.2.2.2.2.1, horder]

/-- C3 witness: the amended statement applied at the counterexample's
placement (misaligned price `50000.005`, which floors to `50000`). -/
theorem C3_witness :
    IsValidTick (FloorToTick (50000 + 5 / 1000) priceTickC) priceTickC = true
    ∧ ((placeOrder stA "1" prBB Side.bid (50000 + 5 / 1000) 1).2.toOption.getD
          (dfltOrder, [])).1.price = FloorToTick (50000 + 5 / 1000) priceTickC :=
  ⟨(C3_floor_then_vacuous_check stA "1" prBB Side.bid (50000 + 5 / 1000) 1).1,
   ((C3_floor_then_vacuous_check stA "1" prBB Side.bid (50000 + 5 / 1000) 1).2.2.2.2
     (placeOrder stA "1" prBB Side.bid (50000 + 5 / 1000) 1).1
     ((placeOrder stA "1" prBB Side.bid (50000 + 5 / 1000) 1).2.toOption.getD
       (dfltOrder, [])).1
     ((placeOrder stA "1" prBB Side.bid (50000 + 5 / 1000) 1).2.toOption.getD
       (dfltOrder, [])).2
     (by with_unfolding_all rfl)).1⟩

/-! ## Claim C6 — place-then-cancel round trip -/

/-- C6: placing a limit order that produces no trades and then cancelling
it restores the caller's available and locked amounts of the locked asset
(quote for a bid, base for an ask) to their pre-placement values. -/
theorem C6_place_cancel_roundtrip (st : EngState) (u : String) (pr : Pair) (sd : Side)
    (p a : ℚ) (st1 : EngState) (o : Order) (st2 : EngState) (c : Order)
    (h1 : placeOrder st u pr sd p a = (st1, Except.ok (o, [])))
    (h2 : engCancelOrder st1 u pr o.id = (st2, Except.ok c)) :
    (st2.accounts.bal u (if sd = Side.bid then pr.quote else pr.base)).available
      = (st.accounts.bal u (if sd = Side.bid then pr.quote else pr.base)).available
    ∧ (st2.accounts.bal u (if sd = Side.bid then pr.quote else pr.base)).locked
      = (st.accounts.bal u (if sd = Side.bid then pr.quote else pr.base)).locked := by
  obtain ⟨order, m1, m2, m3, ob1, hv, hno, hlkq, hpl, hset, href, hst1⟩ :=
    placeOrder_ok_inv st u pr sd p a st1 o [] h1
  obtain ⟨horder, hp, ha, hu⟩ := NewOrder_ok _ _ _ _ _ _ hno
  have hspec := placeLimitOrder_spec _ _ _ _ _ hpl
  simp only [settleLoop] at hset
  have hm2 : m1 = m2 := by simpa using congrArg Prod.fst hset
  unfold refundBidDifference at href
  rw [if_pos (Or.inr rfl)] at href
  have hm3 : m2 = m3 := by simpa using congrArg Prod.fst href
  subst hm3
  subst hm2
  subst hst1
  have hoid : o.id = order.id := hspec.1
  have houid : o.userID = u := by rw [hspec.2.1, horder]
  have hoside : o.side = sd := by rw [hspec.2.2.1, horder]
  have hoprice : o.price = FloorToTick p priceTickC := by rw [hspec.2.2.2.1, horder]
  have hoamt : o.amount = FloorToTick a amountTickC := by rw [hspec.2.2.2.2.1, horder]
  have hofill : o.filledAmount = 0 := by
    rw [hspec.2.2.2.2.2.1, horder]
    simp [sumSizes]
  have hfil : o.isFilled = false := by
    simp only [Order.isFilled, hoamt, hofill, decide_eq_false_iff_not, not_le]
    exact ha
  have hreg := hspec.2.2.2.2.2.2.2 hfil
  have hlkp : mapLookup ob1.orders order.id = some o := hreg.1
  have hL : order.price = FloorToTick p priceTickC := by rw [horder]
  have hLa : order.amount = FloorToTick a amountTickC := by rw [horder]
  have hrem : Order.remaining { o with state := OState.cancelled }
      = FloorToTick a amountTickC := by
    unfold Order.remaining
    dsimp only
    rw [hoamt, hofill, sub_zero]
  unfold engCancelOrder at h2
  rw [if_neg (by simp [hv])] at h2
  dsimp only at h2
  rw [booksLookup_booksInsert_self] at h2
  dsimp only at h2
  rw [hoid, hlkp] at h2
  dsimp only at h2
  rw [if_neg (by simp [houid])] at h2
  have hco : ob1.cancelOrder order.id
      = ((ob1.cancelOrder order.id).1, Except.ok { o with state := OState.cancelled }) := by
    rw [Prod.ext_iff]
    refine ⟨rfl, ?_⟩
    unfold Orderbook.cancelOrder
    rw [hlkp]
  rw [hco] at h2
  dsimp only at h2
  by_cases hsd : sd = Side.bid
  · have hsdo : o.side = Side.bid := by rw [hoside]; exact hsd
    rw [if_pos hsdo] at h2
    rw [if_pos hsdo] at h2
    rw [if_pos hsd] at hlkq
    rw [if_pos hsd] at hlkq
    rw [if_pos (show (0 : ℚ) < Order.remaining { o with state := OState.cancelled } * o.price
        from by rw [hrem, hoprice]; exact mul_pos ha hp)] at h2
    rcases hun : Manager.unlock m1 u pr.quote
        (Order.remaining { o with state := OState.cancelled } * o.price) with ⟨mu, eu⟩
    rw [hun] at h2
    cases eu with
    | some e =>
      dsimp only at h2
      exact Except.noConfusion (congrArg Prod.snd h2)
    | none =>
      dsimp only at h2
      have hst2 : st2.accounts = mu := by
        have h3 := congrArg Prod.fst h2
        dsimp only at h3
        rw [← h3]
      have e1 := (unlock_ok_bal m1 u pr.quote _ mu hun).1
      have e2 := (lock_ok_bal st.accounts u pr.quote _ m1 hlkq).1
      have hXY : Order.remaining { o with state := OState.cancelled } * o.price
          = order.price * order.amount := by
        rw [hrem, hoprice, hL, hLa]
        ring
      rw [if_pos hsd]
      constructor
      · rw [hst2, e1]
        dsimp only
        rw [e2]
        dsimp only
        rw [hXY]
        ring
      · rw [hst2, e1]
        dsimp only
        rw [e2]
        dsimp only
        rw [hXY]
        ring
  · have hsdo : ¬ o.side = Side.bid := by rw [hoside]; exact hsd
    rw [if_neg hsdo] at h2
    rw [if_neg hsdo] at h2
    rw [if_neg hsd] at hlkq
    rw [if_neg hsd] at hlkq
    rw [if_pos (show (0 : ℚ) < Order.remaining { o with state := OState.cancelled }
        from by rw [hrem]; exact ha)] at h2
    rcases hun : Manager.unlock m1 u pr.base
        (Order.remaining { o with state := OState.cancelled }) with ⟨mu, eu⟩
    rw [hun] at h2
    cases eu with
    | some e =>
      dsimp only at h2
      exact Except.noConfusion (congrArg Prod.snd h2)
    | none =>
      dsimp only at h2
      have hst2 : st2.accounts = mu := by
        have h3 := congrArg Prod.fst h2
        dsimp only at h3
        rw [← h3]
      have e1 := (unlock_ok_bal m1 u pr.base _ mu hun).1
      have e2 := (lock_ok_bal st.accounts u pr.base _ m1 hlkq).1
      have hXY : Order.remaining { o with state := OState.cancelled } = order.amount := by
        rw [hrem, hLa]
      rw [if_neg hsd]
      constructor
      · rw [hst2, e1]
        dsimp only
        rw [e2]
        dsimp only
        rw [hXY]
        ring
      · rw [hst2, e1]
        dsimp only
        rw [e2]
        dsimp only
        rw [hXY]
        ring

/-- C6 witness: user 1 places a bid of 1 BTC at 50000 on an empty book
(no trades) and cancels it again; the BRL balance is fully restored. -/
theorem C6_witness :
    ((c6st2.accounts.bal "1" (if Side.bid = Side.bid then prBB.quote else prBB.base)).available
      = (stA.accounts.bal "1" (if Side.bid = Side.bid then prBB.quote else prBB.base)).available)
    ∧ ((c6st2.accounts.bal "1" (if Side.bid = Side.bid then prBB.quote else prBB.base)).locked
      = (stA.accounts.bal "1" (if Side.bid = Side.bid then prBB.quote else prBB.base)).locked) :=
  C6_place_cancel_roundtrip stA "1" prBB Side.bid 50000 1 c6st1 c6o c6st2 c6c
    (by with_unfolding_all rfl) (by with_unfolding_all rfl)

/-! ## Claim C1 — conservation of value -/

theorem executeTransfer_assetTotal (m : Manager) (pr : Pair) (mt : Match) (m' : Manager)
    (h : executeTransfer m pr mt = (m', none)) (A : String) :
    assetTotal m' A = assetTotal m A := by
  unfold executeTransfer at h
  dsimp only at h
  rcases h1 : m.debitLocked mt.ask.userID pr.base mt.sizeFilled with ⟨m1, e1⟩
  rw [h1] at h
  cases e1 with
  | some e => exact Option.noConfusion (congrArg Prod.snd h)
  | none =>
    dsimp only at h
    rcases h2 : m1.credit mt.ask.userID pr.quote (mt.sizeFilled * mt.price) with ⟨m2, e2⟩
    rw [h2] at h
    cases e2 with
    | some e => exact Option.noConfusion (congrArg Prod.snd h)
    | none =>
      dsimp only at h
      rcases h3 : m2.debitLocked mt.bid.userID pr.quote (mt.sizeFilled * mt.price)
        with ⟨m3, e3⟩
      rw [h3] at h
      cases e3 with
      | some e => exact Option.noConfusion (congrArg Prod.snd h)
      | none =>
        dsimp only at h
        rcases h4 : m3.credit mt.bid.userID pr.base mt.sizeFilled with ⟨m4, e4⟩
        rw [h4] at h
        cases e4 with
        | some e => exact Option.noConfusion (congrArg Prod.snd h)
        | none =>
          dsimp only at h
          have hm : m4 = m' := by simpa using congrArg Prod.fst h
          subst hm
          rw [credit_ok_assetTotal m3 _ _ _ _ h4 A,
              debitLocked_ok_assetTotal m2 _ _ _ _ h3 A,
              credit_ok_assetTotal m1 _ _ _ _ h2 A,
              debitLocked_ok_assetTotal m _ _ _ _ h1 A]
          split <;> split <;> ring

theorem settleLoop_assetTotal (pr : Pair) (ms : List Match) :
    ∀ (m m' : Manager), settleLoop m pr ms = (m', none) →
      ∀ A, assetTotal m' A = assetTotal m A := by
  induction ms with
  | nil =>
    intro m m' h A
    simp only [settleLoop] at h
    have hm : m = m' := by simpa using congrArg Prod.fst h
    rw [← hm]
  | cons mt ms ih =>
    intro m m' h A
    simp only [settleLoop] at h
    rcases h1 : executeTransfer m pr mt with ⟨m1, e1⟩
    rw [h1] at h
    cases e1 with
    | some e => exact Option.noConfusion (congrArg Prod.snd h)
    | none =>
      rw [ih m1 m' h A, executeTransfer_assetTotal m pr mt m1 h1 A]

theorem refundBidDifference_assetTotal (m : Manager) (pr : Pair) (u : String) (o : Order)
    (ms : List Match) (m' : Manager) (h : refundBidDifference m pr u o ms = (m', none))
    (A : String) : assetTotal m' A = assetTotal m A := by
  unfold refundBidDifference at h
  split at h
  · have hm : m = m' := by simpa using congrArg Prod.fst h
    rw [← hm]
  · dsimp only at h
    split at h
    · rcases h1 : m.unlock u pr.quote
          (o.price * o.amount - executedQuoteOf ms - o.price * o.remaining) with ⟨m1, e1⟩
      rw [h1] at h
      cases e1 with
      | some e => exact Option.noConfusion (congrArg Prod.snd h)
      | none =>
        dsimp only at h
        have hm : m1 = m' := by simpa using congrArg Prod.fst h
        subst hm
        exact unlock_ok_assetTotal m u pr.quote _ m1 h1 A
    · have hm : m = m' := by simpa using congrArg Prod.fst h
      rw [← hm]

theorem placeOrder_ok_assetTotal (st : EngState) (u : String) (pr : Pair) (sd : Side)
    (p a : ℚ) (st' : EngState) (o : Order) (ms : List Match)
    (h : placeOrder st u pr sd p a = (st', Except.ok (o, ms))) (A : String) :
    assetTotal st'.accounts A = assetTotal st.accounts A := by
  obtain ⟨order, m1, m2, m3, ob1, hv, hno, hlkq, hpl, hset, href, hst1⟩ :=
    placeOrder_ok_inv st u pr sd p a st' o ms h
  subst hst1
  dsimp only
  rw [refundBidDifference_assetTotal m2 pr u o ms m3 href A,
      settleLoop_assetTotal pr ms m1 m2 hset A,
      lock_ok_assetTotal st.accounts u _ _ m1 hlkq A]

theorem engCancelOrder_ok_assetTotal (st : EngState) (u : String) (pr : Pair)
    (oid : Int) (st' : EngState) (c : Order)
    (h : engCancelOrder st u pr oid = (st', Except.ok c)) (A : String) :
    assetTotal st'.accounts A = assetTotal st.accounts A := by
  unfold engCancelOrder at h
  split at h
  · exact Except.noConfusion (congrArg Prod.snd h)
  · cases hbl : booksLookup st.books pr.key with
    | none =>
      rw [hbl] at h
      exact Except.noConfusion (congrArg Prod.snd h)
    | some ob =>
      rw [hbl] at h
      dsimp only at h
      cases hlk : mapLookup ob.orders oid with
      | none =>
        rw [hlk] at h
        exact Except.noConfusion (congrArg Prod.snd h)
      | some o0 =>
        rw [hlk] at h
        dsimp only at h
        split at h
        · exact Except.noConfusion (congrArg Prod.snd h)
        · rcases hco : ob.cancelOrder oid with ⟨ob1, r⟩
          rw [hco] at h
          cases r with
          | error e => exact Except.noConfusion (congrArg Prod.snd h)
          | ok cc =>
            dsimp only at h
            split at h
            · split at h
              · rcases hun : Manager.unlock st.accounts u pr.quote
                    (cc.remaining * cc.price) with ⟨mu, eu⟩
                rw [hun] at h
                cases eu with
                | some e => exact Except.noConfusion (congrArg Prod.snd h)
                | none =>
                  dsimp only at h
                  have h3 := congrArg Prod.fst h
                  dsimp only at h3
                  rw [← h3]
                  exact unlock_ok_assetTotal st.accounts u _ _ mu hun A
              · have h3 := congrArg Prod.fst h
                dsimp only at h3
                rw [← h3]
            · split at h
              · rcases hun : Manager.unlock st.accounts u pr.base cc.remaining
                  with ⟨mu, eu⟩
                rw [hun] at h
                cases eu with
                | some e => exact Except.noConfusion (congrArg Prod.snd h)
                | none =>
                  dsimp only at h
                  have h3 := congrArg Prod.fst h
                  dsimp only at h3
                  rw [← h3]
                  exact unlock_ok_assetTotal st.accounts u _ _ mu hun A
              · have h3 := congrArg Prod.fst h
                dsimp only at h3
                rw [← h3]

/-- C1: conservation of value — for every asset, the per-asset total of
`available + locked` over all users is unchanged by a successful limit
placement (matching, settlement and refund included) and by a successful
cancel; a successful `credit` is the sole source (`+x` on its asset) and
`debit`/`debit_locked` the sole sinks (`-x`); `lock`/`unlock` only move the
amount between the two slots of one (user, asset) balance, leaving every
other balance and every per-asset total unchanged. -/
theorem C1_conservation (st : EngState) (u : String) (pr : Pair) (sd : Side) (p a : ℚ)
    (st1 : EngState) (o : Order) (ms : List Match)
    (stc : EngState) (uc : String) (prc : Pair) (oid : Int) (stc' : EngState) (c : Order)
    (hplace : placeOrder st u pr sd p a = (st1, Except.ok (o, ms)))
    (hcancel : engCancelOrder stc uc prc oid = (stc', Except.ok c)) :
    (∀ A, assetTotal st1.accounts A = assetTotal st.accounts A)
    ∧ (∀ A, assetTotal stc'.accounts A = assetTotal stc.accounts A)
    ∧ (∀ (m m' : Manager) (v b : String) (x : ℚ), m.credit v b x = (m', none) →
        ∀ A, assetTotal m' A = assetTotal m A + (if b = A then x else 0))
    ∧ (∀ (m m' : Manager) (v b : String) (x : ℚ), m.debit v b x = (m', none) →
        ∀ A, assetTotal m' A = assetTotal m A - (if b = A then x else 0))
    ∧ (∀ (m m' : Manager) (v b : String) (x : ℚ), m.debitLocked v b x = (m', none) →
        ∀ A, assetTotal m' A = assetTotal m A - (if b = A then x else 0))
    ∧ (∀ (m m' : Manager) (v b : String) (x : ℚ), m.lock v b x = (m', none) →
        m'.bal v b = ⟨(m.bal v b).available - x, (m.bal v b).locked + x⟩
        ∧ (∀ w w2, ¬ ((w, w2) : String × String) = (v, b) → m'.bal w w2 = m.bal w w2)
        ∧ ∀ A, assetTotal m' A = assetTotal m A)
    ∧ (∀ (m m' : Manager) (v b : String) (x : ℚ), m.unlock v b x = (m', none) →
        m'.bal v b = ⟨(m.bal v b).available + x, (m.bal v b).locked - x⟩
        ∧ (∀ w w2, ¬ ((w, w2) : String × String) = (v, b) → m'.bal w w2 = m.bal w w2)
        ∧ ∀ A, assetTotal m' A = assetTotal m A) :=
  ⟨fun A => placeOrder_ok_assetTotal st u pr sd p a st1 o ms hplace A,
   fun A => engCancelOrder_ok_assetTotal stc uc prc oid stc' c hcancel A,
   fun m m' v b x h A => credit_ok_assetTotal m v b x m' h A,
   fun m m' v b x h A => debit_ok_assetTotal m v b x m' h A,
   fun m m' v b x h A => debitLocked_ok_assetTotal m v b x m' h A,
   fun m m' v b x h => ⟨(lock_ok_bal m v b x m' h).1, (lock_ok_bal m v b x m' h).2,
     fun A => lock_ok_assetTotal m v b x m' h A⟩,
   fun m m' v b x h => ⟨(unlock_ok_bal m v b x m' h).1, (unlock_ok_bal m v b x m' h).2,
     fun A => unlock_ok_assetTotal m v b x m' h A⟩⟩

/-- C1 witness: a crossing placement (trade at 49000, price-improvement
refund) and a cancel, both conserving every per-asset total. -/
theorem C1_witness :
    (∀ A, assetTotal c1st1.accounts A = assetTotal st2a.accounts A)
    ∧ (∀ A, assetTotal c1cst.accounts A = assetTotal c6st1.accounts A)
    ∧ (∀ (m m' : Manager) (v b : String) (x : ℚ), m.credit v b x = (m', none) →
        ∀ A, assetTotal m' A = assetTotal m A + (if b = A then x else 0))
    ∧ (∀ (m m' : Manager) (v b : String) (x : ℚ), m.debit v b x = (m', none) →
        ∀ A, assetTotal m' A = assetTotal m A - (if b = A then x else 0))
    ∧ (∀ (m m' : Manager) (v b : String) (x : ℚ), m.debitLocked v b x = (m', none) →
        ∀ A, assetTotal m' A = assetTotal m A - (if b = A then x else 0))
    ∧ (∀ (m m' : Manager) (v b : String) (x : ℚ), m.lock v b x = (m', none) →
        m'.bal v b = ⟨(m.bal v b).available - x, (m.bal v b).locked + x⟩
        ∧ (∀ w w2, ¬ ((w, w2) : String × String) = (v, b) → m'.bal w w2 = m.bal w w2)
        ∧ ∀ A, assetTotal m' A = assetTotal m A)
    ∧ (∀ (m m' : Manager) (v b : String) (x : ℚ), m.unlock v b x = (m', none) →
        m'.bal v b = ⟨(m.bal v b).available + x, (m.bal v b).locked - x⟩
        ∧ (∀ w w2, ¬ ((w, w2) : String × String) = (v, b) → m'.bal w w2 = m.bal w w2)
        ∧ ∀ A, assetTotal m' A = assetTotal m A) :=
  C1_conservation st2a "1" prBB Side.bid 50000 1 c1st1 c1res.1 c1res.2
    c6st1 "1" prBB 1 c1cst c1cc
    (by with_unfolding_all rfl) (by with_unfolding_all rfl)

/-! ## Claim C2 — bid price-improvement refund -/

theorem quoteFoldl_shift (ms : List Match) : ∀ s : ℚ,
    ms.foldl (fun t mt => t + mt.sizeFilled * mt.price) s
      = s + ms.foldl (fun t mt => t + mt.sizeFilled * mt.price) 0 := by
  induction ms with
  | nil => intro s; simp
  | cons mt ms ih =>
    intro s
    rw [List.foldl_cons, List.foldl_cons, ih, ih (0 + mt.sizeFilled * mt.price)]
    ring

theorem executedQuoteOf_le_of (P : ℚ) : ∀ ms : List Match,
    (∀ mt ∈ ms, 0 ≤ mt.sizeFilled ∧ mt.price ≤ P) →
    executedQuoteOf ms ≤ P * sumSizes ms := by
  intro ms
  induction ms with
  | nil =>
    intro _
    simp [executedQuoteOf, sumSizes]
  | cons mt ms ih =>
    intro hb
    have h1 := hb mt (List.mem_cons_self mt ms)
    have h2 := ih (fun x hx => hb x (List.mem_cons_of_mem mt hx))
    have hcons : executedQuoteOf (mt :: ms)
        = mt.sizeFilled * mt.price + executedQuoteOf ms := by
      unfold executedQuoteOf
      rw [List.foldl_cons, quoteFoldl_shift]
      ring
    have hscons : sumSizes (mt :: ms) = mt.sizeFilled + sumSizes ms := rfl
    rw [hcons, hscons]
    have h3 : mt.sizeFilled * mt.price ≤ P * mt.sizeFilled := by
      rw [mul_comm P]
      exact mul_le_mul_of_nonneg_left h1.2 h1.1
    have hx : P * (mt.sizeFilled + sumSizes ms)
        = P * mt.sizeFilled + P * sumSizes ms := by ring
    rw [hx]
    linarith [h2, h3]

theorem refundBidDifference_effect (m : Manager) (pr : Pair) (u : String) (o : Order)
    (ms : List Match) (m' : Manager)
    (hside : o.side = Side.bid) (hms : ¬ ms = [])
    (h : refundBidDifference m pr u o ms = (m', none)) :
    (minRefundBRL ≤ o.price * o.amount - executedQuoteOf ms - o.price * Order.remaining o →
      m'.bal u pr.quote = ⟨(m.bal u pr.quote).available
          + (o.price * o.amount - executedQuoteOf ms - o.price * Order.remaining o),
        (m.bal u pr.quote).locked
          - (o.price * o.amount - executedQuoteOf ms - o.price * Order.remaining o)⟩
      ∧ ∀ v w, ¬ ((v, w) : String × String) = (u, pr.quote) → m'.bal v w = m.bal v w)
    ∧ (¬ minRefundBRL ≤ o.price * o.amount - executedQuoteOf ms
        - o.price * Order.remaining o → m' = m) := by
  unfold refundBidDifference at h
  rw [if_neg (by simp [hside, hms])] at h
  dsimp only at h
  split at h
  case isTrue hmin =>
    rcases h1 : m.unlock u pr.quote
        (o.price * o.amount - executedQuoteOf ms - o.price * Order.remaining o) with ⟨m1, e1⟩
    rw [h1] at h
    cases e1 with
    | some e => exact Option.noConfusion (congrArg Prod.snd h)
    | none =>
      dsimp only at h
      have hm : m1 = m' := by simpa using congrArg Prod.fst h
      subst hm
      exact ⟨fun _ => ⟨(unlock_ok_bal _ _ _ _ _ h1).1, (unlock_ok_bal _ _ _ _ _ h1).2⟩,
        fun hc => absurd hmin hc⟩
  case isFalse hmin =>
    have hm : m = m' := by simpa using congrArg Prod.fst h
    exact ⟨fun hc => absurd hc hmin, fun _ => hm.symm⟩

/-- C2: after a successful bid placement that traded, with
`E = executedQuoteOf ms`, `L = price * amount` and
`R = price * remaining` over the returned order, the refund `L - E - R`
is nonnegative (trades execute at level prices at or below the
tick-aligned limit); the engine ran `refundBidDifference` into the final
ledger; and that routine unlocks the buyer's quote by exactly the refund
when it reaches the 0.01 minimum (leaving every other balance unchanged)
and does nothing below the minimum, so
`L - E - remaining * price - refund = 0`. -/
theorem C2_price_improvement_refund (st : EngState) (u : String) (pr : Pair) (p a : ℚ)
    (st' : EngState) (o : Order) (ms : List Match)
    (h : placeOrder st u pr Side.bid p a = (st', Except.ok (o, ms)))
    (hms : ¬ ms = [])
    (htick : ((booksLookup st.books pr.key).getD NewOrderbook).priceTick = priceTickC)
    (hwfb : ∀ lim ∈ ((booksLookup st.books pr.key).getD NewOrderbook).bids,
      ∀ r ∈ lim.orders, 0 ≤ r.filledAmount ∧ r.filledAmount < r.amount)
    (hwfa : ∀ lim ∈ ((booksLookup st.books pr.key).getD NewOrderbook).asks,
      ∀ r ∈ lim.orders, 0 ≤ r.filledAmount ∧ r.filledAmount < r.amount) :
    0 ≤ o.price * o.amount - executedQuoteOf ms - o.price * Order.remaining o
    ∧ o.price * o.amount - executedQuoteOf ms - Order.remaining o * o.price
        - (o.price * o.amount - executedQuoteOf ms - o.price * Order.remaining o) = 0
    ∧ (∃ m2 : Manager, refundBidDifference m2 pr u o ms = (st'.accounts, none))
    ∧ (∀ (m m' : Manager) (pr2 : Pair) (u2 : String) (o2 : Order) (ms2 : List Match),
        o2.side = Side.bid → ¬ ms2 = [] →
        refundBidDifference m pr2 u2 o2 ms2 = (m', none) →
        (minRefundBRL ≤ o2.price * o2.amount - executedQuoteOf ms2
            - o2.price * Order.remaining o2 →
          m'.bal u2 pr2.quote = ⟨(m.bal u2 pr2.quote).available
              + (o2.price * o2.amount - executedQuoteOf ms2 - o2.price * Order.remaining o2),
            (m.bal u2 pr2.quote).locked
              - (o2.price * o2.amount - executedQuoteOf ms2 - o2.price * Order.remaining o2)⟩
          ∧ ∀ v w, ¬ ((v, w) : String × String) = (u2, pr2.quote) → m'.bal v w = m.bal v w)
        ∧ (¬ minRefundBRL ≤ o2.price * o2.amount - executedQuoteOf ms2
            - o2.price * Order.remaining o2 → m' = m)) := by
  obtain ⟨order, m1, m2, m3, ob1, hv, hno, hlkq, hpl, hset, href, hst1⟩ :=
    placeOrder_ok_inv st u pr Side.bid p a st' o ms h
  obtain ⟨horder, hp, ha, hu⟩ := NewOrder_ok _ _ _ _ _ _ hno
  have hspec := placeLimitOrder_spec _ _ _ _ _ hpl
  have h0 : 0 ≤ order.filledAmount := by rw [horder]
  have hmt := placeLimitOrder_matches _ order _ o ms hpl h0 hwfb hwfa
  rw [htick] at hmt
  have hsdb : order.side = Side.bid := by rw [horder]
  have htpos : 0 < priceTickC := by norm_num [priceTickC]
  have htne : priceTickC ≠ 0 := ne_of_gt htpos
  have hPm : FloorToTick p priceTickC
      = ((⌊p / priceTickC + bias⌋ : ℤ) : ℚ) * priceTickC := by
    unfold FloorToTick
    rw [if_neg htne]
  have hL : order.price = FloorToTick p priceTickC := by rw [horder]
  have hp2 : 0 < ((⌊p / priceTickC + bias⌋ : ℤ) : ℚ) * priceTickC := by
    rw [← hPm]
    exact hp
  have hmq : 0 < ((⌊p / priceTickC + bias⌋ : ℤ) : ℚ) := by
    by_contra hc
    push_neg at hc
    nlinarith
  have hmZ : 0 ≤ ⌊p / priceTickC + bias⌋ := le_of_lt (by exact_mod_cast hmq)
  have hK : PriceToTicks order.price priceTickC = ⌊p / priceTickC + bias⌋ := by
    rw [hL, hPm]
    exact PriceToTicks_int_mul _ _ htne hmZ
  have hTP : TicksToPrice (PriceToTicks order.price priceTickC) priceTickC
      = order.price := by
    rw [hK]
    simp only [TicksToPrice]
    rw [hL, hPm]
  have hbound : ∀ mt ∈ ms, 0 ≤ mt.sizeFilled ∧ mt.price ≤ order.price := by
    intro mt hmem
    obtain ⟨hsz, hbid, -⟩ := hmt mt hmem
    obtain ⟨-, -, kl, hkl, hpr⟩ := hbid hsdb
    refine ⟨le_of_lt hsz, ?_⟩
    rw [hpr, ← hTP]
    simp only [TicksToPrice]
    exact mul_le_mul_of_nonneg_right (by exact_mod_cast hkl) (le_of_lt htpos)
  have hE := executedQuoteOf_le_of order.price ms hbound
  have hpeq : o.price = order.price := hspec.2.2.2.1
  have haeq : o.amount = order.amount := hspec.2.2.2.2.1
  have hofz : order.filledAmount = 0 := by rw [horder]
  have hre : Order.remaining o = order.amount - sumSizes ms := by
    unfold Order.remaining
    rw [hspec.2.2.2.2.2.1, haeq, hofz]
    ring
  refine ⟨?_, by ring, ⟨m2, ?_⟩,
    fun m m' pr2 u2 o2 ms2 hs hm2 h2 =>
      refundBidDifference_effect m pr2 u2 o2 ms2 m' hs hm2 h2⟩
  · rw [hre, hpeq, haeq]
    have expand : order.price * order.amount - executedQuoteOf ms
        - order.price * (order.amount - sumSizes ms)
        = order.price * sumSizes ms - executedQuoteOf ms := by ring
    linarith [hE, expand]
  · rw [hst1]
    exact href

/-- C2 witness: user 1's bid of 1 BTC at 50000 lifts the resting 0.5 BTC
ask at 49000 — one trade, positive refund (500 BRL), refund routine run
into the final ledger. -/
theorem C2_witness :
    (0 ≤ c1res.1.price * c1res.1.amount - executedQuoteOf c1res.2
        - c1res.1.price * Order.remaining c1res.1)
    ∧ (∃ m2 : Manager, refundBidDifference m2 prBB "1" c1res.1 c1res.2
        = (c1st1.accounts, none)) :=
  ⟨(C2_price_improvement_refund st2a "1" prBB 50000 1 c1st1 c1res.1 c1res.2
      (by with_unfolding_all rfl) (by with_unfolding_all decide)
      (by with_unfolding_all rfl) (by with_unfolding_all decide)
      (by with_unfolding_all decide)).1,
   (C2_price_improvement_refund st2a "1" prBB 50000 1 c1st1 c1res.1 c1res.2
      (by with_unfolding_all rfl) (by with_unfolding_all decide)
      (by with_unfolding_all rfl) (by with_unfolding_all decide)
      (by with_unfolding_all decide)).2.2.1⟩

end Exchange
